import Mathlib

/-!
# SPIKE storage contract, no-op store, authorization gates and URL builders

A shallow embedding of four source files:

* `app/nexus/internal/state/backend/interface.go` (the `Backend` interface),
* `app/nexus/internal/state/backend/memory/memory.go` (`NoopStore`),
* `app/spike/internal/trust/spiffeid.go` (the three authorization gates),
* `app/spike/internal/net/url.go` (the eight URL builders, on top of a model
  of Go's `net/url` and `path` packages).

Go strings are byte sequences.  They are represented as `List Char`, one
`Char` (code below 256) per byte, so that an ASCII literal denotes itself.
-/

namespace Spike

/-- Type `string`: a sequence of bytes, one `Char` with code below 256 per byte. -/
abbrev GoString := List Char

/-- Type `error`: `none` is the `nil` error, `some msg` an error with that text. -/
abbrev GoError := Option GoString

/-! ## `backend.Backend`: the interface as a table of method signatures -/

namespace Backend

/-- The Go types that occur in the signatures of `Backend` and `NoopStore`. -/
inductive GoType where
  | Context          -- context.Context
  | Error            -- error
  | String           -- string
  | Secret           -- store.Secret
  | SecretPtr        -- *store.Secret
  | Policy           -- data.Policy
  | PolicyPtr        -- *data.Policy
  | KeyRecoveryData  -- store.KeyRecoveryData
  deriving DecidableEq, Repr

/-- A method signature: name, parameter types, result types. -/
structure Method where
  name : String
  params : List GoType
  results : List GoType
  deriving DecidableEq, Repr

open GoType in
/-- The method set declared by `type Backend interface` (interface.go, lines 28-61). -/
def Interface : List Method :=
  [ ⟨"Initialize", [Context], [Error]⟩,
    ⟨"Close", [Context], [Error]⟩,
    ⟨"StoreSecret", [Context, String, Secret], [Error]⟩,
    ⟨"LoadSecret", [Context, String], [SecretPtr, Error]⟩,
    ⟨"StorePolicy", [Context, Policy], [Error]⟩,
    ⟨"LoadPolicy", [Context, String], [PolicyPtr, Error]⟩,
    ⟨"DeletePolicy", [Context, String], [Error]⟩,
    ⟨"StoreKeyRecovery", [Context, KeyRecoveryData], [Error]⟩,
    ⟨"LoadKeyRecovery", [Context], [KeyRecoveryData, Error]⟩ ]

/-- Go's rule for interface satisfaction: every method of the interface occurs,
with identical name and signature, in the method set of the type. -/
def implements (methodSet iface : List Method) : Bool :=
  iface.all (fun m => methodSet.contains m)

/-- The interface methods a method set does not provide. -/
def missing (methodSet iface : List Method) : List Method :=
  iface.filter (fun m => !methodSet.contains m)

end Backend

/-! ## Configuration model and factory -/

namespace Backend

/-- The type `DatabaseConfigKey`, a string type. -/
abbrev DatabaseConfigKey := GoString

/-- Constant `KeyDataDir`. -/
def KeyDataDir : DatabaseConfigKey := "data_dir".toList
/-- Constant `KeyDatabaseFile`. -/
def KeyDatabaseFile : DatabaseConfigKey := "database_file".toList
/-- Constant `KeyJournalMode`. -/
def KeyJournalMode : DatabaseConfigKey := "journal_mode".toList
/-- Constant `KeyBusyTimeoutMs`. -/
def KeyBusyTimeoutMs : DatabaseConfigKey := "busy_timeout_ms".toList
/-- Constant `KeyMaxOpenConns`. -/
def KeyMaxOpenConns : DatabaseConfigKey := "max_open_conns".toList
/-- Constant `KeyMaxIdleConns`. -/
def KeyMaxIdleConns : DatabaseConfigKey := "max_idle_conns".toList
/-- Constant `KeyConnMaxLifetimeSeconds`. -/
def KeyConnMaxLifetimeSeconds : DatabaseConfigKey := "conn_max_lifetime_seconds".toList

/-- The struct `Config`; `Options` is the Go map `map[DatabaseConfigKey]any`, held
as its list of entries, with `V` for the values of type `any`. -/
structure Config (V : Type) where
  EncryptionKey : GoString
  Location : GoString
  Options : List (DatabaseConfigKey × V)

/-- The map lookup `cfg.Options[key]`: the value of the first entry for `key`. -/
def Config.option {V : Type} (cfg : Config V) (key : DatabaseConfigKey) : Option V :=
  (cfg.Options.find? (fun kv => kv.1 = key)).map (fun kv => kv.2)

/-- Whether the option map has an entry for `key`. -/
def Config.has {V : Type} (cfg : Config V) (key : DatabaseConfigKey) : Bool :=
  (cfg.option key).isSome

/-- The construction errors of the contract's error taxonomy. -/
inductive ConstructionError where
  | InvalidConfig
  deriving DecidableEq, Repr

/-- A lifecycle call made on a backend instance. -/
inductive Call where
  | Initialize
  | Close
  deriving DecidableEq, Repr

/-- What a run of a factory yields: the backend or the construction error, and
the lifecycle calls made on any backend meanwhile. -/
structure Construction (B : Type) where
  result : Except ConstructionError B
  calls : List Call

/-- The backend a construction returned, if any. -/
def Construction.backend {B : Type} (c : Construction B) : Option B :=
  match c.result with
  | .ok b => some b
  | .error _ => none

/-- Modelled from the spec: the validation step of a `Factory` (only the type
`Factory func(cfg Config) (Backend, error)` is declared in interface.go, no
implementation is among the embedded files).  Section 4.3: a factory "must validate
that required options for the selected backend kind are present and
well-typed".  The required keys of the backend kind and its typing test are
parameters. -/
def Factory.validate {V : Type} (required : List DatabaseConfigKey)
    (wellTyped : DatabaseConfigKey → V → Bool) (cfg : Config V) : Bool :=
  required.all (fun key =>
    match cfg.option key with
    | some v => wellTyped key v
    | none => false)

/-- Modelled from the spec: a `Factory` for one backend kind (no implementation
is among the embedded files).  Section 4.3: validation comes "before attempting
Initialize, failing fast with `InvalidConfig`"; a valid configuration is
handed to the constructor of the backend kind, which is then initialized. -/
def Factory.run {V B : Type} (required : List DatabaseConfigKey)
    (wellTyped : DatabaseConfigKey → V → Bool) (construct : Config V → B)
    (cfg : Config V) : Construction B :=
  if Factory.validate required wellTyped cfg then
    { result := .ok (construct cfg), calls := [Call.Initialize] }
  else
    { result := .error ConstructionError.InvalidConfig, calls := [] }

end Backend

/-! ## `memory.NoopStore` -/

namespace Memory

/-- The type `NoopStore struct {}`: it has no fields. -/
structure NoopStore where
  deriving DecidableEq, Repr

open Backend.GoType in
/-- The method set of `*NoopStore`, as declared in memory.go (lines 31-77). -/
def NoopStore.methodSet : List Backend.Method :=
  [ ⟨"Close", [Context], [Error]⟩,
    ⟨"Initialize", [Context], [Error]⟩,
    ⟨"LoadSecret", [Context, String], [SecretPtr, Error]⟩,
    ⟨"StoreSecret", [Context, String, Secret], [Error]⟩,
    ⟨"StorePolicy", [Context, Policy], [Error]⟩,
    ⟨"LoadPolicy", [Context, String], [PolicyPtr, Error]⟩,
    ⟨"DeletePolicy", [Context, String], [Error]⟩ ]

section Methods

variable {Ctx Secret Policy : Type}

/-- Method `Close`: `func (s *NoopStore) Close(_ context.Context) error`, which returns `nil`. -/
def NoopStore.Close (_s : NoopStore) (_ctx : Ctx) : GoError := none

/-- Method `Initialize`: `func (s *NoopStore) Initialize(_ context.Context) error`, which
returns `nil`. -/
def NoopStore.Initialize (_s : NoopStore) (_ctx : Ctx) : GoError := none

/-- Method `LoadSecret`: returns `nil, nil`, a nil `*store.Secret` and a nil error. -/
def NoopStore.LoadSecret (_s : NoopStore) (_ctx : Ctx) (_path : GoString) :
    Option Secret × GoError := (none, none)

/-- Method `StoreSecret`: returns `nil`. -/
def NoopStore.StoreSecret (_s : NoopStore) (_ctx : Ctx) (_path : GoString)
    (_secret : Secret) : GoError := none

/-- Method `StorePolicy`: returns `nil`. -/
def NoopStore.StorePolicy (_s : NoopStore) (_ctx : Ctx) (_policy : Policy) : GoError := none

/-- Method `LoadPolicy`: returns `nil, nil`, a nil `*data.Policy` and a nil error. -/
def NoopStore.LoadPolicy (_s : NoopStore) (_ctx : Ctx) (_id : GoString) :
    Option Policy × GoError := (none, none)

/-- Method `DeletePolicy`: returns `nil`. -/
def NoopStore.DeletePolicy (_s : NoopStore) (_ctx : Ctx) (_id : GoString) : GoError := none

end Methods

/-- A call of one of the five operations whose only result is an error. -/
inductive Op (Ctx Secret Policy : Type) where
  | Initialize (ctx : Ctx)
  | Close (ctx : Ctx)
  | StoreSecret (ctx : Ctx) (path : GoString) (secret : Secret)
  | StorePolicy (ctx : Ctx) (policy : Policy)
  | DeletePolicy (ctx : Ctx) (id : GoString)

section Run

variable {Ctx Secret Policy : Type}

/-- One call on the store behind the pointer receiver: the store after the call
(no method body assigns to it) and the error the call returns. -/
def NoopStore.step (s : NoopStore) : Op Ctx Secret Policy → NoopStore × GoError
  | .Initialize ctx => (s, s.Initialize ctx)
  | .Close ctx => (s, s.Close ctx)
  | .StoreSecret ctx path secret => (s, s.StoreSecret ctx path secret)
  | .StorePolicy ctx policy => (s, s.StorePolicy ctx policy)
  | .DeletePolicy ctx id => (s, s.DeletePolicy ctx id)

/-- The store after a sequence of calls. -/
def NoopStore.run (s : NoopStore) : List (Op Ctx Secret Policy) → NoopStore
  | [] => s
  | op :: ops => NoopStore.run (s.step op).1 ops

/-- The errors returned by a sequence of calls, in order. -/
def NoopStore.errors (s : NoopStore) : List (Op Ctx Secret Policy) → List GoError
  | [] => []
  | op :: ops => (s.step op).2 :: NoopStore.errors (s.step op).1 ops

end Run

end Memory

/-! ## `trust`: the three authorization gates -/

namespace Trust

/-- Package `auth` (internal/auth) is not among the embedded files: its three
role predicates are taken as parameters. -/
structure Auth where
  IsPilot : GoString → Bool
  IsPilotRecover : GoString → Bool
  IsPilotRestore : GoString → Bool

/-- What a gate emits through package `log`. -/
inductive Record where
  | error (msg : GoString)
  | fatal (msg : GoString)
  deriving DecidableEq, Repr

/-- How a call of a gate ends: it returns to its caller, or the process halts. -/
inductive Outcome where
  | returned (log : List Record)
  | halted (log : List Record)
  deriving DecidableEq, Repr

/-- The records emitted during the call. -/
def Outcome.log : Outcome → List Record
  | .returned l => l
  | .halted l => l

/-- Whether control comes back to the caller. -/
def Outcome.returns : Outcome → Bool
  | .returned _ => true
  | .halted _ => false

/-- Whether the call ends in the fatal outcome: the process halts, and the last
record emitted is the fatal message. -/
def Outcome.endsFatal : Outcome → Bool
  | .returned _ => false
  | .halted log =>
    match log.getLast? with
    | some (.fatal _) => true
    | _ => false

/-- The fatal messages emitted during the call. -/
def Outcome.fatals (o : Outcome) : List GoString :=
  o.log.filterMap (fun r => match r with | .fatal m => some m | .error _ => none)

/-- The error messages emitted during the call. -/
def Outcome.errors (o : Outcome) : List GoString :=
  o.log.filterMap (fun r => match r with | .error m => some m | .fatal _ => none)

/-- The function `fmt.Sprintf` restricted to the verb `%s` with string operands: each `%s`
is replaced by the next operand (`%!s(MISSING)` when none is left), every
other byte is copied. -/
def Sprintf : GoString → List GoString → GoString
  | [], _ => []
  | [c], _ => [c]
  | c :: d :: rest, args =>
    if c = '%' ∧ d = 's' then
      match args with
      | [] => "%!s(MISSING)".toList ++ Sprintf rest []
      | a :: as => a ++ Sprintf rest as
    else c :: Sprintf (d :: rest) args

/-- The call `log.Log().Error(msg)`: emits an error record and continues. -/
def logError (msg : GoString) (log : List Record) : List Record :=
  log ++ [Record.error msg]

/-- Modelled from the spec: `log.FatalF` (internal/log, not among the embedded files).
"Authorization failures in the current design are fatal (process termination
with a diagnostic message)": the formatted message is emitted and the process
halts, so control never returns to the caller. -/
def FatalF (format : GoString) (args : List GoString) (log : List Record) : Outcome :=
  Outcome.halted (log ++ [Record.fatal (Sprintf format args)])

/-- The gate `func Authenticate(spiffeid string)` (spiffeid.go, lines 18-28). -/
def Authenticate (auth : Auth) (spiffeid : GoString) : Outcome :=
  if !auth.IsPilot spiffeid then
    let log := logError
      "Authenticate: You need a 'super user' SPIFFE ID to use this command.".toList []
    FatalF "Authenticate: You are not authorized to use this command (%s).\n".toList
      [spiffeid] log
  else Outcome.returned []

/-- The gate `func AuthenticateRecover(spiffeid string)` (spiffeid.go, lines 32-42). -/
def AuthenticateRecover (auth : Auth) (spiffeid : GoString) : Outcome :=
  if !auth.IsPilotRecover spiffeid then
    let log := logError
      "AuthenticateRecover: You need a 'recover' SPIFFE ID to use this command.".toList []
    FatalF "AuthenticateRecover: You are not authorized to use this command (%s).\n".toList
      [spiffeid] log
  else Outcome.returned []

/-- The gate `func AuthenticateRestore(spiffeid string)` (spiffeid.go, lines 46-56).
The format string of its `log.FatalF` call starts with `AuthenticateRecover:`. -/
def AuthenticateRestore (auth : Auth) (spiffeid : GoString) : Outcome :=
  if !auth.IsPilotRestore spiffeid then
    let log := logError
      "AuthenticateRestore: You need a 'restore' SPIFFE ID to use this command.".toList []
    FatalF "AuthenticateRecover: You are not authorized to use this command (%s).\n".toList
      [spiffeid] log
  else Outcome.returned []

/-- An identity holds exactly one of the three roles. -/
def exactlyOneRole (auth : Auth) (s : GoString) : Prop :=
  (auth.IsPilot s = true ∧ auth.IsPilotRecover s = false ∧ auth.IsPilotRestore s = false) ∨
  (auth.IsPilot s = false ∧ auth.IsPilotRecover s = true ∧ auth.IsPilotRestore s = false) ∨
  (auth.IsPilot s = false ∧ auth.IsPilotRecover s = false ∧ auth.IsPilotRestore s = true)

/-- An `auth` package with one identity for each role. -/
def sampleAuth : Auth where
  IsPilot := fun s => s = "spiffe://spike.ist/spike/pilot/role/superuser".toList
  IsPilotRecover := fun s => s = "spiffe://spike.ist/spike/pilot/role/recover".toList
  IsPilotRestore := fun s => s = "spiffe://spike.ist/spike/pilot/role/restore".toList

end Trust

/-! ## Go's `strings`, `path` and `net/url` packages (as of Go 1.23) -/

namespace Strings

/-- Function `strings.HasPrefix`. -/
def HasPrefix (s pre : GoString) : Bool := pre.isPrefixOf s

/-- Function `strings.HasSuffix`. -/
def HasSuffix (s suf : GoString) : Bool := suf.isSuffixOf s

/-- Function `strings.Index`: position of the first occurrence of `sep` in `s`; `none` stands for -1. -/
def Index : GoString → GoString → Option Nat
  | [], sep => if sep = [] then some 0 else none
  | c :: t, sep =>
    if sep.isPrefixOf (c :: t) then some 0 else (Index t sep).map (· + 1)

/-- Function `strings.LastIndex`: position of the last occurrence of `sep` in `s`; `none` stands for -1. -/
def LastIndex : GoString → GoString → Option Nat
  | [], sep => if sep = [] then some 0 else none
  | c :: t, sep =>
    match LastIndex t sep with
    | some i => some (i + 1)
    | none => if sep.isPrefixOf (c :: t) then some 0 else none

/-- Function `strings.Contains`. -/
def Contains (s sub : GoString) : Bool := (Index s sub).isSome

/-- Function `strings.Cut`: the text before and after the first occurrence of `sep`. -/
def Cut (s sep : GoString) : GoString × GoString × Bool :=
  match Index s sep with
  | some i => (s.take i, s.drop (i + sep.length), true)
  | none => (s, [], false)

/-- Function `strings.Count` for a one-byte separator: the number of its occurrences. -/
def CountByte (s : GoString) (c : Char) : Nat := s.count c

/-- Function `strings.ToLower` on an ASCII string (a scheme that `getScheme`
returns is one): upper-case letters are mapped to lower case. -/
def ToLower (s : GoString) : GoString :=
  s.map (fun c => if 'A' ≤ c ∧ c ≤ 'Z' then Char.ofNat (c.toNat + 32) else c)

end Strings

namespace Path

/-- The backtracking loop of `path.Clean` for a `..` element, on the write
index: `for out.w > dotdot && out.index(out.w) != '/' { out.w-- }`. -/
def backtrackIndex (buf : GoString) (dotdot : Nat) : Nat → Nat
  | 0 => 0
  | w + 1 => if w + 1 > dotdot ∧ buf.getD (w + 1) '/' ≠ '/' then backtrackIndex buf dotdot w else w + 1

/-- The buffer after `out.w--` followed by the backtracking loop. -/
def backtrack (out : GoString) (dotdot : Nat) : GoString :=
  out.take (backtrackIndex out dotdot (out.length - 1))

/-- The main loop of `path.Clean`: `rest` is `path[r:]`, `out` the bytes written
so far, `dotdot` the index where `..` must stop.  Every iteration consumes at
least one byte, so `fuel = len(path)` iterations suffice. -/
def cleanLoop (rooted : Bool) : Nat → GoString → GoString → Nat → GoString
  | 0, _, out, _ => out
  | _ + 1, [], out, _ => out
  | fuel + 1, c :: t, out, dotdot =>
    if c = '/' then
      -- empty path element
      cleanLoop rooted fuel t out dotdot
    else if c = '.' ∧ (t = [] ∨ t.head? = some '/') then
      -- . element
      cleanLoop rooted fuel t out dotdot
    else if c = '.' ∧ t.head? = some '.' ∧ (t.tail = [] ∨ t.tail.head? = some '/') then
      -- .. element: remove to last /
      if out.length > dotdot then
        cleanLoop rooted fuel t.tail (backtrack out dotdot) dotdot
      else if !rooted then
        let out1 := if out.length > 0 then out ++ ['/'] else out
        let out2 := out1 ++ ['.', '.']
        cleanLoop rooted fuel t.tail out2 out2.length
      else
        cleanLoop rooted fuel t.tail out dotdot
    else
      -- real path element: add slash if needed, then copy the element
      let out1 :=
        if (rooted ∧ out.length ≠ 1) ∨ (!rooted ∧ out.length ≠ 0) then out ++ ['/'] else out
      cleanLoop rooted fuel ((c :: t).dropWhile (· ≠ '/'))
        (out1 ++ (c :: t).takeWhile (· ≠ '/')) dotdot

/-- Function `path.Clean`. -/
def Clean (path : GoString) : GoString :=
  if path = [] then ['.']
  else
    let rooted := path.head? = some '/'
    let out :=
      if rooted then cleanLoop rooted path.length (path.drop 1) ['/'] 1
      else cleanLoop rooted path.length path [] 0
    if out.length = 0 then ['.'] else out

/-- A real path element for `path.Clean`: not empty, without a slash, and not
starting with a dot. -/
def plainElement (s : GoString) : Bool :=
  match s with
  | [] => false
  | c :: t => c ≠ '.' ∧ (c :: t).all (fun d => d ≠ '/')

/-- The buffer `path.Join` builds: the non-empty elements separated by `/`. -/
def joinBuf : GoString → List GoString → GoString
  | buf, [] => buf
  | buf, e :: es =>
    if buf.length > 0 ∨ e ≠ [] then
      joinBuf ((if buf.length > 0 then buf ++ ['/'] else buf) ++ e) es
    else joinBuf buf es

/-- Function `path.Join`. -/
def Join (elem : List GoString) : GoString :=
  if (elem.map List.length).sum = 0 then [] else Clean (joinBuf [] elem)

end Path

namespace Url

/-- The byte `'` (39). -/
def apostrophe : Char := Char.ofNat 39

/-- The byte `"` (34). -/
def dquote : Char := Char.ofNat 34

/-- The escaping modes of `net/url`. -/
inductive encoding where
  | encodePath
  | encodePathSegment
  | encodeHost
  | encodeZone
  | encodeUserPassword
  | encodeQueryComponent
  | encodeFragment
  deriving DecidableEq, Repr

open encoding

/-- The errors `net/url` reports while parsing. -/
inductive ParseErr where
  | EscapeError (s : GoString)
  | InvalidHostError (s : GoString)
  | invalidControlCharacter
  | emptyUrl
  | missingProtocolScheme
  | invalidURIForRequest
  | firstPathSegmentColon
  | missingBracket
  | invalidPort (colonPort : GoString)
  | invalidUserinfo
  deriving DecidableEq, Repr

/-- Type `url.Error`: the operation, the URL and the underlying error. -/
structure Error where
  Op : GoString
  URL : GoString
  Err : ParseErr
  deriving DecidableEq, Repr

/-- Type `url.Userinfo`. -/
structure Userinfo where
  username : GoString
  password : GoString
  passwordSet : Bool
  deriving DecidableEq, Repr

/-- Type `url.URL`. -/
structure URL where
  Scheme : GoString := []
  Opaque : GoString := []
  User : Option Userinfo := none
  Host : GoString := []
  Path : GoString := []
  RawPath : GoString := []
  OmitHost : Bool := false
  ForceQuery : Bool := false
  RawQuery : GoString := []
  Fragment : GoString := []
  RawFragment : GoString := []
  deriving DecidableEq, Repr

/-- Function `ishex`. -/
def ishex (c : Char) : Bool :=
  ('0' ≤ c ∧ c ≤ '9') ∨ ('a' ≤ c ∧ c ≤ 'f') ∨ ('A' ≤ c ∧ c ≤ 'F')

/-- Function `unhex`. -/
def unhex (c : Char) : Nat :=
  if '0' ≤ c ∧ c ≤ '9' then c.toNat - '0'.toNat
  else if 'a' ≤ c ∧ c ≤ 'f' then c.toNat - 'a'.toNat + 10
  else if 'A' ≤ c ∧ c ≤ 'F' then c.toNat - 'A'.toNat + 10
  else 0

/-- Function `shouldEscape`: whether byte `c` must be escaped in the given part of a URL. -/
def shouldEscape (c : Char) (mode : encoding) : Bool :=
  -- §2.3 Unreserved characters (alphanum)
  if ('a' ≤ c ∧ c ≤ 'z') ∨ ('A' ≤ c ∧ c ≤ 'Z') ∨ ('0' ≤ c ∧ c ≤ '9') then false
  else if (mode = encodeHost ∨ mode = encodeZone) ∧
      c ∈ ['!', '$', '&', apostrophe, '(', ')', '*', '+', ',', ';', '=', ':', '[', ']', '<', '>', dquote] then
    false
  else if c ∈ ['-', '_', '.', '~'] then false
  else if c ∈ ['$', '&', '+', ',', '/', ':', ';', '=', '?', '@'] ∧
      mode ∈ [encodePath, encodePathSegment, encodeUserPassword, encodeQueryComponent,
        encodeFragment] then
    match mode with
    | encodePath => c = '?'
    | encodePathSegment => c = '/' ∨ c = ';' ∨ c = ',' ∨ c = '?'
    | encodeUserPassword => c = '@' ∨ c = '/' ∨ c = '?' ∨ c = ':'
    | encodeQueryComponent => true
    | _ => false
  else if mode = encodeFragment ∧ c ∈ ['!', '(', ')', '*'] then false
  else true

/-- The checking pass of `unescape`: the number of `%` and the `hasPlus` flag,
or the error at the first malformed byte. -/
def unescapeCheck (mode : encoding) : GoString → Nat → Bool → Except ParseErr (Nat × Bool)
  | [], n, hasPlus => .ok (n, hasPlus)
  | c :: t, n, hasPlus =>
    if c = '%' then
      match t with
      | a :: b :: t2 =>
        if !ishex a ∨ !ishex b then .error (.EscapeError (c :: a :: b :: []))
        else if mode = encodeHost ∧ unhex a < 8 ∧ [c, a, b] ≠ ['%', '2', '5'] then
          .error (.EscapeError [c, a, b])
        else if mode = encodeZone ∧ [c, a, b] ≠ ['%', '2', '5'] ∧
            Char.ofNat (unhex a * 16 + unhex b) ≠ ' ' ∧
            shouldEscape (Char.ofNat (unhex a * 16 + unhex b)) encodeHost then
          .error (.EscapeError [c, a, b])
        else unescapeCheck mode t2 (n + 1) hasPlus
      | _ => .error (.EscapeError (c :: t))
    else if c = '+' then
      unescapeCheck mode t n (mode = encodeQueryComponent)
    else if (mode = encodeHost ∨ mode = encodeZone) ∧ c.toNat < 128 ∧ shouldEscape c encodeHost then
      .error (.InvalidHostError [c])
    else unescapeCheck mode t n hasPlus

/-- The decoding pass of `unescape`. -/
def unescapeDecode (mode : encoding) : GoString → GoString
  | [] => []
  | c :: t =>
    if c = '%' then
      match t with
      | a :: b :: t2 => Char.ofNat (unhex a * 16 + unhex b) :: unescapeDecode mode t2
      | _ => []
    else if c = '+' then
      (if mode = encodeQueryComponent then ' ' else '+') :: unescapeDecode mode t
    else c :: unescapeDecode mode t

/-- Function `unescape`. -/
def unescape (s : GoString) (mode : encoding) : Except ParseErr GoString :=
  match unescapeCheck mode s 0 false with
  | .error e => .error e
  | .ok (n, hasPlus) => if n = 0 ∧ !hasPlus then .ok s else .ok (unescapeDecode mode s)

/-- The test `p, err := unescape(raw, mode); err == nil && p == v`. -/
def unescapesTo (raw : GoString) (mode : encoding) (v : GoString) : Bool :=
  match unescape raw mode with
  | .ok p => p = v
  | .error _ => false

/-- The byte `"0123456789ABCDEF"[i]`. -/
def upperhex (i : Nat) : Char := "0123456789ABCDEF".toList.getD i '0'

/-- The writing loop of `escape`. -/
def escapeLoop (mode : encoding) : GoString → GoString
  | [] => []
  | c :: t =>
    if c = ' ' ∧ mode = encodeQueryComponent then '+' :: escapeLoop mode t
    else if shouldEscape c mode then
      '%' :: upperhex (c.toNat / 16) :: upperhex (c.toNat % 16) :: escapeLoop mode t
    else c :: escapeLoop mode t

/-- Function `escape`: a string without bytes to escape is returned as it is. -/
def escape (s : GoString) (mode : encoding) : GoString :=
  let spaceCount := s.countP (fun c => shouldEscape c mode ∧ c = ' ' ∧ mode = encodeQueryComponent)
  let hexCount := s.countP (fun c => shouldEscape c mode ∧ ¬ (c = ' ' ∧ mode = encodeQueryComponent))
  if spaceCount = 0 ∧ hexCount = 0 then s
  else if hexCount = 0 then s.map (fun c => if c = ' ' then '+' else c)
  else escapeLoop mode s

/-- Function `validEncoded`. -/
def validEncoded (s : GoString) (mode : encoding) : Bool :=
  s.all (fun c =>
    if c ∈ ['!', '$', '&', apostrophe, '(', ')', '*', '+', ',', ';', '=', ':', '@'] then true
    else if c ∈ ['[', ']'] then true
    else if c = '%' then true
    else !shouldEscape c mode)

/-- The loop of `getScheme`; `i` is the index reached, `pre` the bytes before it. -/
def getSchemeLoop (rawURL : GoString) : GoString → GoString → Except ParseErr (GoString × GoString)
  | _, [] => .ok ([], rawURL)
  | pre, c :: t =>
    if ('a' ≤ c ∧ c ≤ 'z') ∨ ('A' ≤ c ∧ c ≤ 'Z') then getSchemeLoop rawURL (pre ++ [c]) t
    else if ('0' ≤ c ∧ c ≤ '9') ∨ c = '+' ∨ c = '-' ∨ c = '.' then
      if pre = [] then .ok ([], rawURL) else getSchemeLoop rawURL (pre ++ [c]) t
    else if c = ':' then
      if pre = [] then .error .missingProtocolScheme else .ok (pre, t)
    else .ok ([], rawURL)

/-- Function `getScheme`: splits `scheme:rest`; the scheme is empty when there is none. -/
def getScheme (rawURL : GoString) : Except ParseErr (GoString × GoString) :=
  getSchemeLoop rawURL [] rawURL

/-- Function `stringContainsCTLByte`. -/
def stringContainsCTLByte (s : GoString) : Bool :=
  s.any (fun b => b < ' ' ∨ b.toNat = 127)

/-- Function `validOptionalPort`: empty, or a colon followed by digits. -/
def validOptionalPort (port : GoString) : Bool :=
  match port with
  | [] => true
  | c :: t => if c ≠ ':' then false else t.all (fun b => !(b < '0' ∨ b > '9'))

/-- Function `validUserinfo`.  The source ranges over the runes of `s`; a byte
of 128 or more belongs to a rune outside the accepted set, so ranging over
the bytes gives the same answer. -/
def validUserinfo (s : GoString) : Bool :=
  s.all (fun r =>
    if 'A' ≤ r ∧ r ≤ 'Z' then true
    else if 'a' ≤ r ∧ r ≤ 'z' then true
    else if '0' ≤ r ∧ r ≤ '9' then true
    else r ∈ ['-', '.', '_', ':', '~', '!', '$', '&', apostrophe, '(', ')', '*', '+', ',', ';', '=',
      '%', '@'])

/-- Function `parseHost`. -/
def parseHost (host : GoString) : Except ParseErr GoString :=
  if Strings.HasPrefix host ['['] then
    match Strings.LastIndex host [']'] with
    | none => .error .missingBracket
    | some i =>
      let colonPort := host.drop (i + 1)
      if !validOptionalPort colonPort then .error (.invalidPort colonPort)
      else
        match Strings.Index (host.take i) ['%', '2', '5'] with
        | some zone =>
          match unescape (host.take zone) encodeHost with
          | .error e => .error e
          | .ok host1 =>
            match unescape ((host.take i).drop zone) encodeZone with
            | .error e => .error e
            | .ok host2 =>
              match unescape (host.drop i) encodeHost with
              | .error e => .error e
              | .ok host3 => .ok (host1 ++ host2 ++ host3)
        | none => unescape host encodeHost
  else
    match Strings.LastIndex host [':'] with
    | some i =>
      let colonPort := host.drop i
      if !validOptionalPort colonPort then .error (.invalidPort colonPort)
      else unescape host encodeHost
    | none => unescape host encodeHost

/-- Function `parseAuthority`. -/
def parseAuthority (authority : GoString) : Except ParseErr (Option Userinfo × GoString) :=
  let i := Strings.LastIndex authority ['@']
  let hostRes :=
    match i with
    | none => parseHost authority
    | some i => parseHost (authority.drop (i + 1))
  match hostRes with
  | .error e => .error e
  | .ok host =>
    match i with
    | none => .ok (none, host)
    | some i =>
      let userinfo := authority.take i
      if !validUserinfo userinfo then .error .invalidUserinfo
      else if !Strings.Contains userinfo [':'] then
        match unescape userinfo encodeUserPassword with
        | .error e => .error e
        | .ok userinfo => .ok (some ⟨userinfo, [], false⟩, host)
      else
        match unescape (Strings.Cut userinfo [':']).1 encodeUserPassword with
        | .error e => .error e
        | .ok username =>
          match unescape (Strings.Cut userinfo [':']).2.1 encodeUserPassword with
          | .error e => .error e
          | .ok password => .ok (some ⟨username, password, true⟩, host)

/-- Method `(*URL).setPath`: sets `Path` and, when the default encoding of `Path`
differs from `p`, `RawPath`. -/
def URL.setPath (u : URL) (p : GoString) : Except ParseErr URL :=
  match unescape p encodePath with
  | .error e => .error e
  | .ok path =>
    if p = escape path encodePath then .ok { u with Path := path, RawPath := [] }
    else .ok { u with Path := path, RawPath := p }

/-- Method `(*URL).setFragment`. -/
def URL.setFragment (u : URL) (f : GoString) : Except ParseErr URL :=
  match unescape f encodeFragment with
  | .error e => .error e
  | .ok frag =>
    if f = escape frag encodeFragment then .ok { u with Fragment := frag, RawFragment := [] }
    else .ok { u with Fragment := frag, RawFragment := f }

/-- Method `(*URL).EscapedPath`. -/
def URL.EscapedPath (u : URL) : GoString :=
  if u.RawPath ≠ [] ∧ validEncoded u.RawPath encodePath ∧
      unescapesTo u.RawPath encodePath u.Path then u.RawPath
  else if u.Path = ['*'] then ['*']
  else escape u.Path encodePath

/-- Method `(*URL).EscapedFragment`. -/
def URL.EscapedFragment (u : URL) : GoString :=
  if u.RawFragment ≠ [] ∧ validEncoded u.RawFragment encodeFragment ∧
      unescapesTo u.RawFragment encodeFragment u.Fragment then u.RawFragment
  else escape u.Fragment encodeFragment

/-- Method `(*Userinfo).String`. -/
def Userinfo.String (u : Userinfo) : GoString :=
  let s := escape u.username encodeUserPassword
  if u.passwordSet then s ++ [':'] ++ escape u.password encodeUserPassword else s

/-- The query split of `parse`: a lone trailing `?` forces an empty query,
otherwise the text is cut at its first `?`.  The result is `ForceQuery`, the
text before the query, and `RawQuery`. -/
def splitQuery (rest : GoString) : Bool × GoString × GoString :=
  if Strings.HasSuffix rest ['?'] ∧ Strings.CountByte rest '?' = 1 then
    (true, rest.take (rest.length - 1), [])
  else (false, (Strings.Cut rest ['?']).1, (Strings.Cut rest ['?']).2.1)

/-- The authority split of `parse`, for a text that starts with `//`: the
authority runs up to the next `/`, the path starts there. -/
def splitAuthority (rest : GoString) : GoString × GoString :=
  match Strings.Index (rest.drop 2) ['/'] with
  | some i => ((rest.drop 2).take i, (rest.drop 2).drop i)
  | none => (rest.drop 2, [])

/-- The function `parse(rawURL, viaRequest)`. -/
def parse (rawURL : GoString) (viaRequest : Bool) : Except ParseErr URL :=
  if stringContainsCTLByte rawURL then .error .invalidControlCharacter
  else if rawURL = [] ∧ viaRequest then .error .emptyUrl
  else if rawURL = ['*'] then .ok { Path := ['*'] }
  else
    match getScheme rawURL with
    | .error e => .error e
    | .ok (scheme, rest0) =>
      let scheme := Strings.ToLower scheme
      let q := splitQuery rest0
      let rest := q.2.1
      let url : URL := { Scheme := scheme, ForceQuery := q.1, RawQuery := q.2.2 }
      if !Strings.HasPrefix rest ['/'] ∧ scheme ≠ [] then
        -- rootless paths are opaque
        .ok { url with Opaque := rest }
      else if !Strings.HasPrefix rest ['/'] ∧ viaRequest then .error .invalidURIForRequest
      else if !Strings.HasPrefix rest ['/'] ∧
          Strings.Contains (Strings.Cut rest ['/']).1 [':'] then
        .error .firstPathSegmentColon
      else if (scheme ≠ [] ∨ (!viaRequest ∧ !Strings.HasPrefix rest ['/', '/', '/'])) ∧
          Strings.HasPrefix rest ['/', '/'] then
        match parseAuthority (splitAuthority rest).1 with
        | .error e => .error e
        | .ok (user, host) =>
          URL.setPath { url with User := user, Host := host } (splitAuthority rest).2
      else if scheme ≠ [] ∧ Strings.HasPrefix rest ['/'] then
        -- an empty authority: the host is omitted
        URL.setPath { url with OmitHost := true } rest
      else URL.setPath url rest

/-- Function `url.Parse`: the fragment is cut off at the first `#` and set last. -/
def Parse (rawURL : GoString) : Except Error URL :=
  let u := (Strings.Cut rawURL ['#']).1
  let frag := (Strings.Cut rawURL ['#']).2.1
  match parse u false with
  | .error e => .error ⟨"parse".toList, u, e⟩
  | .ok url =>
    if frag = [] then .ok url
    else
      match url.setFragment frag with
      | .error e => .error ⟨"parse".toList, rawURL, e⟩
      | .ok url => .ok url

/-- The scheme and its colon, the first bytes `(*URL).String` writes. -/
def URL.schemePart (u : URL) : GoString :=
  if u.Scheme ≠ [] then u.Scheme ++ [':'] else []

/-- The `//`, the user information and the host that `(*URL).String` writes for
a URL that is not opaque. -/
def URL.authorityPart (u : URL) : GoString :=
  if u.Scheme ≠ [] ∨ u.Host ≠ [] ∨ u.User ≠ none then
    if u.OmitHost ∧ u.Host = [] ∧ u.User = none then
      -- omit empty host
      []
    else
      (if u.Host ≠ [] ∨ u.Path ≠ [] ∨ u.User ≠ none then ['/', '/'] else []) ++
      (match u.User with
        | some ui => ui.String ++ ['@']
        | none => []) ++
      (if u.Host ≠ [] then escape u.Host encodeHost else [])
  else []

/-- The path as `(*URL).String` writes it behind the bytes `buf` written so
far: a `/` in front of a relative path that follows a host, a `./` in front of
a first segment with a colon when nothing was written yet, then the escaped
path. -/
def URL.pathPart (u : URL) (buf : GoString) : GoString :=
  let path := u.EscapedPath
  let slash : GoString :=
    if path ≠ [] ∧ path.head? ≠ some '/' ∧ u.Host ≠ [] then ['/'] else []
  let dot : GoString :=
    if (buf ++ slash).length = 0 ∧ Strings.Contains (Strings.Cut path ['/']).1 [':'] then
      ['.', '/']
    else []
  slash ++ dot ++ path

/-- Method `(*URL).String`: the bytes written to the builder, in order. -/
def URL.String (u : URL) : GoString :=
  u.schemePart ++
    (if u.Opaque ≠ [] then u.Opaque
      else u.authorityPart ++ u.pathPart (u.schemePart ++ u.authorityPart)) ++
    (if u.ForceQuery ∨ u.RawQuery ≠ [] then ['?'] ++ u.RawQuery else []) ++
    (if u.Fragment ≠ [] then ['#'] ++ u.EscapedFragment else [])

/-- Method `(*URL).JoinPath`: the error of `setPath` is discarded, leaving the copy unchanged. -/
def URL.JoinPath (u : URL) (elem : List GoString) : URL :=
  let first := u.EscapedPath
  let rel := !Strings.HasPrefix first ['/']
  -- a relative base path is joined as a rooted one, and the root is cut off again
  let elem := (if rel then ['/'] ++ first else first) :: elem
  let p := if rel then (Path.Join elem).drop 1 else Path.Join elem
  -- path.Join removes trailing slashes: preserve at least one
  let p :=
    if Strings.HasSuffix (elem.getLastD []) ['/'] ∧ !Strings.HasSuffix p ['/'] then p ++ ['/']
    else p
  match u.setPath p with
  | .ok url => url
  | .error _ => u

/-- Whether `url.Parse` accepts the text. -/
def parses (rawURL : GoString) : Bool :=
  match Parse rawURL with
  | .ok _ => true
  | .error _ => false

/-- Function `url.JoinPath`: the joined URL, or the empty string and the parse error. -/
def JoinPath (base : GoString) (elem : List GoString) : GoString × Option Error :=
  match Parse base with
  | .error e => ([], some e)
  | .ok url => ((url.JoinPath elem).String, none)

end Url

/-! ## Package `net` of the `spike` CLI: the URL builders -/

namespace Net

/-- The builder `UrlSecretGet`; `root` is the value of `env.NexusApiRoot()` (package `env` is
not among the embedded files). -/
def UrlSecretGet (root : GoString) : GoString :=
  (Url.JoinPath root ["/v1/secrets?action=get".toList]).1

/-- The builder `UrlSecretPut`. -/
def UrlSecretPut (root : GoString) : GoString :=
  (Url.JoinPath root ["/v1/secrets".toList]).1

/-- The builder `UrlSecretDelete`. -/
def UrlSecretDelete (root : GoString) : GoString :=
  (Url.JoinPath root ["/v1/secrets?action=delete".toList]).1

/-- The builder `UrlSecretUndelete`. -/
def UrlSecretUndelete (root : GoString) : GoString :=
  (Url.JoinPath root ["/v1/secrets?action=undelete".toList]).1

/-- The builder `UrlSecretList`. -/
def UrlSecretList (root : GoString) : GoString :=
  (Url.JoinPath root ["/v1/secrets?action=list".toList]).1

/-- The builder `UrlInit`. -/
def UrlInit (root : GoString) : GoString :=
  (Url.JoinPath root ["/v1/init".toList]).1

/-- The builder `UrlInitState`. -/
def UrlInitState (root : GoString) : GoString :=
  (Url.JoinPath root ["/v1/init?action=check".toList]).1

/-- The builder `UrlAdminLogin`. -/
def UrlAdminLogin (root : GoString) : GoString :=
  (Url.JoinPath root ["/v1/login?action=admin".toList]).1

/-- The eight URL builders, in the order of url.go. -/
def builders : List (GoString → GoString) :=
  [UrlSecretGet, UrlSecretPut, UrlSecretDelete, UrlSecretUndelete, UrlSecretList, UrlInit,
    UrlInitState, UrlAdminLogin]

end Net

/-! ## Shapes of API roots -/

namespace Net

/-- A letter or a digit. -/
def isAlnum (c : Char) : Bool :=
  ('a' ≤ c ∧ c ≤ 'z') ∨ ('A' ≤ c ∧ c ≤ 'Z') ∨ ('0' ≤ c ∧ c ≤ '9')

/-- A byte that may stand unescaped in the text of a plain root. -/
def urlByte (c : Char) : Bool :=
  isAlnum c ∨ c ∈ ['-', '_', '.', '~', '$', '&', '+', ',', ':', ';', '=', '@', '/']

/-- A byte of a plain host name. -/
def hostByte (c : Char) : Bool := isAlnum c ∨ c ∈ ['-', '.']

/-- A scheme in lower case: a lower-case letter, then lower-case letters,
digits, `+`, `-` or `.`. -/
def schemeOk (s : GoString) : Bool :=
  match s with
  | [] => false
  | c :: t =>
    ('a' ≤ c ∧ c ≤ 'z') ∧
      t.all (fun d => ('a' ≤ d ∧ d ≤ 'z') ∨ ('0' ≤ d ∧ d ≤ '9') ∨ d ∈ ['+', '-', '.'])

/-- A host name: one or more letters, digits, `-` or `.`. -/
def hostOk (h : GoString) : Bool :=
  h ≠ [] ∧ h.all (fun c => isAlnum c ∨ c ∈ ['-', '.'])

/-- A port: nothing, or a colon followed by digits. -/
def portOk (p : GoString) : Bool :=
  match p with
  | [] => true
  | c :: t => c = ':' ∧ t.all (fun d => '0' ≤ d ∧ d ≤ '9')

/-- A byte that a path segment may hold unescaped. -/
def segmentByte (c : Char) : Bool :=
  isAlnum c ∨ c ∈ ['-', '_', '.', '~', '$', '&', '+', ',', ':', ';', '=', '@']

/-- A path segment: one or more segment bytes, the first of them not a dot. -/
def segmentOk (s : GoString) : Bool :=
  match s with
  | [] => false
  | c :: t => c ≠ '.' ∧ segmentByte c ∧ t.all segmentByte

/-- The path with the given segments, each preceded by a slash. -/
def pathOf : List GoString → GoString
  | [] => []
  | s :: segs => '/' :: s ++ pathOf segs

/-- An API root spelled `scheme://host[:port][/segment]*`. -/
structure PlainRoot where
  scheme : GoString
  host : GoString
  port : GoString
  segments : List GoString
  deriving DecidableEq, Repr

/-- The text of the root. -/
def PlainRoot.text (r : PlainRoot) : GoString :=
  r.scheme ++ [':', '/', '/'] ++ r.host ++ r.port ++ pathOf r.segments

/-- The root is in normal spelling: lower-case scheme, plain host, numeric
port, and plain path segments (so no query, no fragment, no trailing slash,
no empty or dot segment, nothing to escape). -/
def PlainRoot.ok (r : PlainRoot) : Bool :=
  schemeOk r.scheme ∧ hostOk r.host ∧ portOk r.port ∧ r.segments.all segmentOk

/-- An absolute URL as `net/url` sees it, without query, fragment or trailing
slash: `url.Parse` accepts the text, the result has a scheme and a host and
neither query nor fragment, and the text does not end in a slash. -/
def absoluteRoot (root : GoString) : Bool :=
  match Url.Parse root with
  | .error _ => false
  | .ok u =>
    u.Scheme ≠ [] ∧ u.Host ≠ [] ∧ u.RawQuery = [] ∧ u.ForceQuery = false ∧ u.Fragment = [] ∧
      !Strings.HasSuffix root ['/'] ∧ '?' ∉ root ∧ '#' ∉ root

/-- The root is spelled the way `net/url` prints it and its path is clean:
`url.Parse` followed by `String` gives the text back, and the escaped path is
empty, or rooted and left unchanged by `path.Clean`. -/
def normalRoot (root : GoString) : Bool :=
  match Url.Parse root with
  | .error _ => false
  | .ok u =>
    u.String = root ∧
      (u.EscapedPath = [] ∨
        (u.EscapedPath.head? = some '/' ∧ Path.Clean u.EscapedPath = u.EscapedPath))

end Net

/-! # Theorems -/

/-! ## The no-op store -/

namespace Memory

theorem NoopStore.run_eq {Ctx Secret Policy : Type} (s : NoopStore)
    (ops : List (Op Ctx Secret Policy)) : s.run ops = s := by
  induction ops with
  | nil => rfl
  | cons op ops ih => cases op <;> simp [NoopStore.run, NoopStore.step]

theorem NoopStore.step_err {Ctx Secret Policy : Type} (s : NoopStore)
    (op : Op Ctx Secret Policy) : (s.step op).2 = none := by
  cases op <;> rfl

/-- C1: after every sequence of `NoopStore` operations the store is as it was,
`LoadSecret` returns a nil secret and a nil error for every path and
`LoadPolicy` a nil policy and a nil error for every id; a secret just stored
at `path` is not what `LoadSecret(path)` returns, and a policy just stored is
not what `LoadPolicy` of its id returns. -/
theorem noop_load_stateless {Ctx Secret Policy : Type} (s : NoopStore)
    (ops : List (Op Ctx Secret Policy)) (ctx : Ctx) (path id : GoString) :
    s.run ops = s ∧
    (s.run ops).LoadSecret ctx path = ((none : Option Secret), (none : GoError)) ∧
    (s.run ops).LoadPolicy ctx id = ((none : Option Policy), (none : GoError)) ∧
    (∀ (c : Ctx) (sec : Secret),
      (((s.run ops).step (Op.StoreSecret c path sec : Op Ctx Secret Policy)).1.LoadSecret
        ctx path : Option Secret × GoError) ≠ (some sec, none)) ∧
    (∀ (c : Ctx) (p : Policy) (idOf : Policy → GoString),
      (((s.run ops).step (Op.StorePolicy c p : Op Ctx Secret Policy)).1.LoadPolicy
        ctx (idOf p) : Option Policy × GoError) ≠ (some p, none)) := by
  refine ⟨NoopStore.run_eq s ops, rfl, rfl, ?_, ?_⟩
  · intro c sec h
    simp [NoopStore.LoadSecret] at h
  · intro c p idOf h
    simp [NoopStore.LoadPolicy] at h

/-- C2: each of `Initialize`, `Close`, `StoreSecret`, `StorePolicy` and
`DeletePolicy` returns a nil error for every context and argument, in every
sequence of calls; so `Close` succeeds after any history, however often it is
called and whether or not `Initialize` came first. -/
theorem noop_error_only_operations_return_nil {Ctx Secret Policy : Type} (s : NoopStore)
    (ops : List (Op Ctx Secret Policy)) (op : Op Ctx Secret Policy) (ctx : Ctx) :
    (s.step op).2 = none ∧
    s.errors ops = List.replicate ops.length none ∧
    (s.run ops).Close ctx = none ∧
    ((s.run ops).run (List.replicate ops.length (Op.Close ctx : Op Ctx Secret Policy))).Close ctx
      = none := by
  refine ⟨NoopStore.step_err s op, ?_, rfl, rfl⟩
  induction ops generalizing s with
  | nil => rfl
  | cons o ops ih =>
    simp only [NoopStore.errors, List.length_cons, List.replicate_succ]
    rw [NoopStore.step_err, ih]

/-- C5 (the code departs from the claim): the method set of `*NoopStore` does
not satisfy the `Backend` interface; of its nine methods, `StoreKeyRecovery`
and `LoadKeyRecovery` are not provided, the other seven are. -/
theorem noopStore_lacks_key_recovery :
    Backend.implements NoopStore.methodSet Backend.Interface = false ∧
    Backend.missing NoopStore.methodSet Backend.Interface =
      [ ⟨"StoreKeyRecovery", [.Context, .KeyRecoveryData], [.Error]⟩,
        ⟨"LoadKeyRecovery", [.Context], [.KeyRecoveryData, .Error]⟩ ] ∧
    Backend.Interface.length = 9 ∧ NoopStore.methodSet.length = 7 := by
  decide

end Memory

/-! ## The factory -/

namespace Backend

theorem Factory.validate_false_of_missing {V : Type} (required : List DatabaseConfigKey)
    (wellTyped : DatabaseConfigKey → V → Bool) (cfg : Config V) (key : DatabaseConfigKey)
    (hreq : key ∈ required) (hmiss : cfg.has key = false) :
    Factory.validate required wellTyped cfg = false := by
  unfold Factory.validate
  rw [List.all_eq_false]
  refine ⟨key, hreq, ?_⟩
  unfold Config.has at hmiss
  cases h : cfg.option key with
  | none => simp
  | some v => simp [h] at hmiss

/-- C8: for every configuration that lacks an option key required by the
backend kind, the factory returns the construction error `InvalidConfig`, no
backend, and makes no `Initialize` call. -/
theorem factory_rejects_missing_required_key {V B : Type} (required : List DatabaseConfigKey)
    (wellTyped : DatabaseConfigKey → V → Bool) (construct : Config V → B) (cfg : Config V)
    (key : DatabaseConfigKey) (hreq : key ∈ required) (hmiss : cfg.has key = false) :
    (match (Factory.run required wellTyped construct cfg).result with
      | .error e => e = ConstructionError.InvalidConfig
      | .ok _ => False) ∧
    (Factory.run required wellTyped construct cfg).backend = none ∧
    Call.Initialize ∉ (Factory.run required wellTyped construct cfg).calls := by
  have h := Factory.validate_false_of_missing required wellTyped cfg key hreq hmiss
  simp [Factory.run, h, Construction.backend]

/-- Witness for C8: a factory that requires `data_dir`, run on a configuration
whose option map holds only `journal_mode`. -/
theorem factory_rejects_missing_required_key_witness :
    KeyDataDir ∈ [KeyDataDir, KeyDatabaseFile] ∧
    (Config.has (⟨[], [], [(KeyJournalMode, 1)]⟩ : Config Nat) KeyDataDir = false) ∧
    (Factory.run [KeyDataDir, KeyDatabaseFile] (fun _ (_ : Nat) => true)
        (fun (_ : Config Nat) => Memory.NoopStore.mk) ⟨[], [], [(KeyJournalMode, 1)]⟩).backend
      = none :=
  ⟨by decide, by decide,
    (factory_rejects_missing_required_key [KeyDataDir, KeyDatabaseFile] (fun _ (_ : Nat) => true)
      (fun (_ : Config Nat) => Memory.NoopStore.mk) ⟨[], [], [(KeyJournalMode, 1)]⟩ KeyDataDir
      (by decide) (by decide)).2.1⟩

end Backend

/-! ## The authorization gates -/

namespace Trust

/-- C3: for every identity, `Authenticate` returns to its caller exactly when
`auth.IsPilot` accepts it, `AuthenticateRecover` exactly when
`auth.IsPilotRecover` does, `AuthenticateRestore` exactly when
`auth.IsPilotRestore` does; in every other case the gate ends in the fatal,
process-halting outcome. -/
theorem gate_returns_iff_role (auth : Auth) (s : GoString) :
    ((Authenticate auth s).returns = auth.IsPilot s ∧
      (Authenticate auth s).endsFatal = !auth.IsPilot s) ∧
    ((AuthenticateRecover auth s).returns = auth.IsPilotRecover s ∧
      (AuthenticateRecover auth s).endsFatal = !auth.IsPilotRecover s) ∧
    ((AuthenticateRestore auth s).returns = auth.IsPilotRestore s ∧
      (AuthenticateRestore auth s).endsFatal = !auth.IsPilotRestore s) := by
  refine ⟨⟨?_, ?_⟩, ⟨?_, ?_⟩, ⟨?_, ?_⟩⟩
  · cases h : auth.IsPilot s <;>
      simp [Authenticate, h, FatalF, Outcome.returns]
  · cases h : auth.IsPilot s <;>
      simp [Authenticate, h, FatalF, logError, Outcome.endsFatal]
  · cases h : auth.IsPilotRecover s <;>
      simp [AuthenticateRecover, h, FatalF, Outcome.returns]
  · cases h : auth.IsPilotRecover s <;>
      simp [AuthenticateRecover, h, FatalF, logError, Outcome.endsFatal]
  · cases h : auth.IsPilotRestore s <;>
      simp [AuthenticateRestore, h, FatalF, Outcome.returns]
  · cases h : auth.IsPilotRestore s <;>
      simp [AuthenticateRestore, h, FatalF, logError, Outcome.endsFatal]

theorem Authenticate_returns (auth : Auth) (s : GoString) :
    (Authenticate auth s).returns = auth.IsPilot s := by
  cases h : auth.IsPilot s <;> simp [Authenticate, h, FatalF, Outcome.returns]

theorem AuthenticateRecover_returns (auth : Auth) (s : GoString) :
    (AuthenticateRecover auth s).returns = auth.IsPilotRecover s := by
  cases h : auth.IsPilotRecover s <;> simp [AuthenticateRecover, h, FatalF, Outcome.returns]

theorem AuthenticateRestore_returns (auth : Auth) (s : GoString) :
    (AuthenticateRestore auth s).returns = auth.IsPilotRestore s := by
  cases h : auth.IsPilotRestore s <;> simp [AuthenticateRestore, h, FatalF, Outcome.returns]

/-- C4: for an identity that holds exactly one of the three roles, exactly one
of the three gates returns, the one of that role, and the other two do not;
and the outcome of each gate is the same under any two `auth` packages that
agree on that gate's own predicate, whatever the other two predicates say. -/
theorem gates_role_independent (auth : Auth) (s : GoString) (h : exactlyOneRole auth s) :
    ([(Authenticate auth s).returns, (AuthenticateRecover auth s).returns,
        (AuthenticateRestore auth s).returns].count true = 1) ∧
    (Authenticate auth s).returns = auth.IsPilot s ∧
    (AuthenticateRecover auth s).returns = auth.IsPilotRecover s ∧
    (AuthenticateRestore auth s).returns = auth.IsPilotRestore s ∧
    (∀ other : Auth,
      (other.IsPilot s = auth.IsPilot s → Authenticate other s = Authenticate auth s) ∧
      (other.IsPilotRecover s = auth.IsPilotRecover s →
        AuthenticateRecover other s = AuthenticateRecover auth s) ∧
      (other.IsPilotRestore s = auth.IsPilotRestore s →
        AuthenticateRestore other s = AuthenticateRestore auth s)) := by
  refine ⟨?_, Authenticate_returns auth s, AuthenticateRecover_returns auth s,
    AuthenticateRestore_returns auth s, ?_⟩
  · rw [Authenticate_returns, AuthenticateRecover_returns, AuthenticateRestore_returns]
    rcases h with ⟨h1, h2, h3⟩ | ⟨h1, h2, h3⟩ | ⟨h1, h2, h3⟩ <;> simp [h1, h2, h3]
  · intro other
    refine ⟨?_, ?_, ?_⟩
    · intro e; simp only [Authenticate, e]
    · intro e; simp only [AuthenticateRecover, e]
    · intro e; simp only [AuthenticateRestore, e]

/-- Witness for C4: the recover identity passes `AuthenticateRecover` only. -/
theorem gates_role_independent_witness :
    exactlyOneRole sampleAuth "spiffe://spike.ist/spike/pilot/role/recover".toList ∧
    (Authenticate sampleAuth "spiffe://spike.ist/spike/pilot/role/recover".toList).returns
      = false ∧
    (AuthenticateRecover sampleAuth "spiffe://spike.ist/spike/pilot/role/recover".toList).returns
      = true ∧
    (AuthenticateRestore sampleAuth "spiffe://spike.ist/spike/pilot/role/recover".toList).returns
      = false :=
  have h : exactlyOneRole sampleAuth "spiffe://spike.ist/spike/pilot/role/recover".toList := by
    unfold exactlyOneRole; decide
  have t := gates_role_independent sampleAuth _ h
  ⟨h, t.2.1.trans (by decide), t.2.2.1.trans (by decide), t.2.2.2.1.trans (by decide)⟩

/-- C9 (the code departs from the claim): for a rejected identity, the fatal
message of `AuthenticateRestore` begins with `AuthenticateRecover:`, not with
`AuthenticateRestore:`, while its error message begins with
`AuthenticateRestore:`; the fatal message does contain the identity. -/
theorem authenticateRestore_fatal_names_recover :
    (AuthenticateRestore sampleAuth "spiffe://example.org/x".toList).fatals =
      ["AuthenticateRecover: You are not authorized to use this command (spiffe://example.org/x).\n".toList] ∧
    (∀ m ∈ (AuthenticateRestore sampleAuth "spiffe://example.org/x".toList).fatals,
      "AuthenticateRestore:".toList.isPrefixOf m = false ∧
      "AuthenticateRecover:".toList.isPrefixOf m = true) ∧
    (∀ m ∈ (AuthenticateRestore sampleAuth "spiffe://example.org/x".toList).errors,
      "AuthenticateRestore:".toList.isPrefixOf m = true) := by
  decide

end Trust

/-! ## The URL builders -/

section UrlBuilders

open Url Url.encoding Net Path

/-! ### Bytes and strings -/

theorem char_le_iff (a b : Char) : a ≤ b ↔ a.toNat ≤ b.toNat := Iff.rfl
theorem char_lt_iff (a b : Char) : a < b ↔ a.toNat < b.toNat := Iff.rfl
theorem char_eq_iff (a b : Char) : a = b ↔ a.toNat = b.toNat := by
  constructor
  · intro h; rw [h]
  · intro h
    apply Char.ext
    apply UInt32.ext
    exact h


theorem urlByte_facts (c : Char) (h : urlByte c = true) :
    c ≠ '#' ∧ c ≠ '?' ∧ c ≠ '%' ∧ c ≠ '*' ∧ ¬ (c < ' ') ∧ c.toNat ≠ 127 := by
  simp only [urlByte, isAlnum, Bool.or_eq_true, decide_eq_true_eq, List.mem_cons,
    List.mem_singleton, List.not_mem_nil, char_le_iff, char_lt_iff, char_eq_iff, ne_eq] at h ⊢
  simp at h ⊢
  omega

theorem urlByte_shouldEscape (c : Char) (h : urlByte c = true) :
    shouldEscape c encodePath = false := by
  simp only [urlByte, Bool.or_eq_true, decide_eq_true_eq] at h
  rcases h with h | h
  · simp only [isAlnum, decide_eq_true_eq] at h
    simp [shouldEscape, h]
  · simp only [List.mem_cons, List.mem_singleton, List.not_mem_nil, or_false] at h
    rcases h with rfl | rfl | rfl | rfl | rfl | rfl | rfl | rfl | rfl | rfl | rfl | rfl | rfl <;> decide

theorem hostByte_facts (c : Char) (h : hostByte c = true) :
    urlByte c = true ∧ c ≠ '/' ∧ c ≠ '@' ∧ c ≠ '[' ∧ c ≠ ':' ∧ c ≠ '+' ∧ c ≠ '%' := by
  refine ⟨?_, ?_⟩
  · simp only [hostByte, urlByte, Bool.or_eq_true, decide_eq_true_eq, List.mem_cons,
      List.mem_singleton, List.not_mem_nil] at h ⊢
    tauto
  · simp only [hostByte, isAlnum, Bool.or_eq_true, decide_eq_true_eq, List.mem_cons,
      List.mem_singleton, List.not_mem_nil, char_le_iff, char_lt_iff, char_eq_iff, ne_eq] at h ⊢
    simp at h ⊢
    omega

theorem hostByte_shouldEscape (c : Char) (h : hostByte c = true) :
    shouldEscape c encodeHost = false := by
  simp only [hostByte, Bool.or_eq_true, decide_eq_true_eq] at h
  rcases h with h | h
  · simp only [isAlnum, decide_eq_true_eq] at h
    simp [shouldEscape, h]
  · simp only [List.mem_cons, List.mem_singleton, List.not_mem_nil, or_false] at h
    rcases h with rfl | rfl <;> decide

theorem digit_hostByte (c : Char) (h : '0' ≤ c ∧ c ≤ '9') : hostByte c = true := by
  simp [hostByte, isAlnum, h]

/-! strings -/

theorem Index_single_none (c : Char) (s : GoString) (h : c ∉ s) : Strings.Index s [c] = none := by
  induction s with
  | nil => simp [Strings.Index]
  | cons d t ih =>
    simp only [List.mem_cons, not_or] at h
    have hne : ¬ (c = d) := h.1
    simp [Strings.Index, List.isPrefixOf, hne, ih h.2]

theorem Index_single_append (c : Char) (a b : GoString) (h : c ∉ a) :
    Strings.Index (a ++ c :: b) [c] = some a.length := by
  induction a with
  | nil => simp [Strings.Index, List.isPrefixOf]
  | cons d t ih =>
    simp only [List.mem_cons, not_or] at h
    have hne : ¬ (c = d) := h.1
    simp [Strings.Index, List.isPrefixOf, hne, ih h.2]

theorem LastIndex_single_none (c : Char) (s : GoString) (h : c ∉ s) :
    Strings.LastIndex s [c] = none := by
  induction s with
  | nil => simp [Strings.LastIndex]
  | cons d t ih =>
    simp only [List.mem_cons, not_or] at h
    have hne : ¬ (c = d) := h.1
    simp [Strings.LastIndex, List.isPrefixOf, hne, ih h.2]

theorem LastIndex_single_append (c : Char) (a b : GoString) (h : c ∉ b) :
    Strings.LastIndex (a ++ c :: b) [c] = some a.length := by
  induction a with
  | nil => simp [Strings.LastIndex, List.isPrefixOf, LastIndex_single_none c b h]
  | cons d t ih => simp [Strings.LastIndex, ih]

theorem Cut_single_none (c : Char) (s : GoString) (h : c ∉ s) :
    Strings.Cut s [c] = (s, [], false) := by
  simp [Strings.Cut, Index_single_none c s h]

theorem unescapeCheck_path (s : GoString) (h : '%' ∉ s) (n : Nat) :
    unescapeCheck encodePath s n false = .ok (n, false) := by
  induction s with
  | nil => rfl
  | cons c t ih =>
    simp only [List.mem_cons, not_or] at h
    have hne : ¬ (c = '%') := fun e => h.1 e.symm
    rw [unescapeCheck.eq_def]
    by_cases hp : c = '+'
    · simp [hne, hp, ih h.2]
    · simp [hne, hp, ih h.2]

theorem unescape_path (s : GoString) (h : '%' ∉ s) : unescape s encodePath = .ok s := by
  simp [unescape, unescapeCheck_path s h 0]

theorem unescapeCheck_host (s : GoString)
    (h : ∀ c ∈ s, c ≠ '%' ∧ c ≠ '+' ∧ shouldEscape c encodeHost = false) (n : Nat) :
    unescapeCheck encodeHost s n false = .ok (n, false) := by
  induction s with
  | nil => rfl
  | cons c t ih =>
    have hc := h c (List.mem_cons_self _ _)
    have ht : ∀ d ∈ t, d ≠ '%' ∧ d ≠ '+' ∧ shouldEscape d encodeHost = false :=
      fun d hd => h d (List.mem_cons_of_mem _ hd)
    rw [unescapeCheck.eq_def]
    simp [hc.1, hc.2.1, hc.2.2, ih ht]

theorem unescape_host (s : GoString)
    (h : ∀ c ∈ s, c ≠ '%' ∧ c ≠ '+' ∧ shouldEscape c encodeHost = false) :
    unescape s encodeHost = .ok s := by
  simp [unescape, unescapeCheck_host s h 0]

theorem escape_id (s : GoString) (mode : encoding) (h : ∀ c ∈ s, shouldEscape c mode = false) :
    escape s mode = s := by
  have h1 : s.countP (fun c => shouldEscape c mode ∧ c = ' ' ∧ mode = encodeQueryComponent) = 0 := by
    rw [List.countP_eq_zero]
    intro c hc
    simp [h c hc]
  have h2 : s.countP (fun c => shouldEscape c mode ∧ ¬ (c = ' ' ∧ mode = encodeQueryComponent)) = 0 := by
    rw [List.countP_eq_zero]
    intro c hc
    simp [h c hc]
  unfold escape
  simp only [h1, h2, and_self, if_true]

theorem getSchemeLoop_tail (raw pre t r : GoString) (hpre : pre ≠ [])
    (h : ∀ d ∈ t, ('a' ≤ d ∧ d ≤ 'z') ∨ ('0' ≤ d ∧ d ≤ '9') ∨ d ∈ ['+', '-', '.']) :
    getSchemeLoop raw pre (t ++ ':' :: r) = .ok (pre ++ t, r) := by
  induction t generalizing pre with
  | nil => simp [getSchemeLoop, hpre]
  | cons d t ih =>
    have hd := h d (List.mem_cons_self _ _)
    have ht := fun e he => h e (List.mem_cons_of_mem _ he)
    have hpre2 : pre ++ [d] ≠ [] := by simp
    rcases hd with hd | hd | hd
    · simp [getSchemeLoop, hd, ih (pre ++ [d]) hpre2 ht]
    · have hn : ¬ (('a' ≤ d ∧ d ≤ 'z') ∨ ('A' ≤ d ∧ d ≤ 'Z')) := by
        simp only [char_le_iff] at hd ⊢
        simp at hd ⊢
        omega
      simp [getSchemeLoop, hn, hd, hpre, ih (pre ++ [d]) hpre2 ht]
    · have hn : ¬ (('a' ≤ d ∧ d ≤ 'z') ∨ ('A' ≤ d ∧ d ≤ 'Z')) := by
        simp only [List.mem_cons, List.mem_singleton, List.not_mem_nil, or_false] at hd
        rcases hd with rfl | rfl | rfl <;> decide
      have hd2 : ('0' ≤ d ∧ d ≤ '9') ∨ d = '+' ∨ d = '-' ∨ d = '.' := by
        simp only [List.mem_cons, List.mem_singleton, List.not_mem_nil, or_false] at hd
        tauto
      have e := ih (pre ++ [d]) hpre2 ht
      simp only [List.cons_append, getSchemeLoop, hn, if_false, hd2, if_true, hpre]
      simpa using e

theorem getScheme_plain (scheme r : GoString) (h : schemeOk scheme = true) :
    getScheme (scheme ++ ':' :: r) = .ok (scheme, r) := by
  cases scheme with
  | nil => simp [schemeOk] at h
  | cons c t =>
    simp only [schemeOk, Bool.decide_and, Bool.and_eq_true, decide_eq_true_eq, List.all_eq_true,
      Bool.or_eq_true, Bool.decide_or] at h
    have hc : ('a' ≤ c ∧ c ≤ 'z') ∨ ('A' ≤ c ∧ c ≤ 'Z') := Or.inl h.1
    have := getSchemeLoop_tail (c :: t ++ ':' :: r) [c] t r (by simp) (by
      intro d hd
      have := h.2 d hd
      simpa using this)
    simp only [getScheme, List.cons_append, getSchemeLoop, hc, if_true, List.nil_append]
    simpa using this

theorem ToLower_id (s : GoString) (h : ∀ c ∈ s, ¬ ('A' ≤ c ∧ c ≤ 'Z')) : Strings.ToLower s = s := by
  unfold Strings.ToLower
  conv_rhs => rw [← List.map_id s]
  apply List.map_congr_left
  intro c hc
  simp [h c hc]

theorem noCTL (s : GoString) (h : ∀ c ∈ s, urlByte c = true) : stringContainsCTLByte s = false := by
  unfold stringContainsCTLByte
  rw [List.any_eq_false]
  intro c hc
  have := urlByte_facts c (h c hc)
  simp [this.2.2.2.2.1, this.2.2.2.2.2]

theorem scheme_bytes (s : GoString) (h : schemeOk s = true) :
    s ≠ [] ∧ ∀ c ∈ s, urlByte c = true ∧ ¬ ('A' ≤ c ∧ c ≤ 'Z') := by
  cases s with
  | nil => simp [schemeOk] at h
  | cons c t =>
    simp only [schemeOk, Bool.decide_and, Bool.and_eq_true, decide_eq_true_eq, List.all_eq_true,
      Bool.or_eq_true, Bool.decide_or] at h
    refine ⟨by simp, ?_⟩
    intro d hd
    have key : ('a' ≤ d ∧ d ≤ 'z') ∨ ('0' ≤ d ∧ d ≤ '9') ∨ d ∈ ['+', '-', '.'] := by
      rcases List.mem_cons.1 hd with rfl | hd
      · exact Or.inl h.1
      · simpa using h.2 d hd
    constructor
    · simp only [urlByte, isAlnum, Bool.or_eq_true, decide_eq_true_eq]
      rcases key with k | k | k
      · exact Or.inl (Or.inl k)
      · exact Or.inl (Or.inr (Or.inr k))
      · right
        simp only [List.mem_cons, List.mem_singleton, List.not_mem_nil, or_false] at k ⊢
        tauto
    · simp only [List.mem_cons, List.mem_singleton, List.not_mem_nil, or_false, char_le_iff,
        char_eq_iff] at key ⊢
      simp at key ⊢
      omega

theorem host_bytes (s : GoString) (h : hostOk s = true) :
    s ≠ [] ∧ ∀ c ∈ s, hostByte c = true := by
  simp only [hostOk, Bool.decide_and, Bool.and_eq_true, decide_eq_true_eq, List.all_eq_true,
    decide_not, Bool.not_eq_true', decide_eq_false_iff_not] at h
  refine ⟨h.1, ?_⟩
  intro c hc
  have := h.2 c hc
  simpa [hostByte] using this

theorem port_cases (p : GoString) (h : portOk p = true) :
    p = [] ∨ ∃ ds, p = ':' :: ds ∧ ∀ d ∈ ds, '0' ≤ d ∧ d ≤ '9' := by
  cases p with
  | nil => exact Or.inl rfl
  | cons c t =>
    simp only [portOk, Bool.decide_and, Bool.and_eq_true, decide_eq_true_eq, List.all_eq_true] at h
    exact Or.inr ⟨t, by rw [h.1], fun d hd => h.2 d hd⟩

theorem segmentByte_facts (c : Char) (h : segmentByte c = true) :
    urlByte c = true ∧ c ≠ '/' := by
  constructor
  · simp only [segmentByte, urlByte, Bool.or_eq_true, decide_eq_true_eq, List.mem_cons,
      List.mem_singleton, List.not_mem_nil] at h ⊢
    tauto
  · simp only [segmentByte, isAlnum, Bool.or_eq_true, decide_eq_true_eq, List.mem_cons,
      List.mem_singleton, List.not_mem_nil, char_le_iff, char_eq_iff, ne_eq] at h ⊢
    simp at h ⊢
    omega

theorem segment_bytes (s : GoString) (h : segmentOk s = true) :
    (∃ c t, s = c :: t ∧ c ≠ '.' ∧ c ≠ '/') ∧ ∀ d ∈ s, segmentByte d = true := by
  cases s with
  | nil => simp [segmentOk] at h
  | cons c t =>
    simp only [segmentOk, Bool.decide_and, Bool.and_eq_true, decide_eq_true_eq, List.all_eq_true,
      decide_not, Bool.not_eq_true', decide_eq_false_iff_not, ne_eq] at h
    refine ⟨⟨c, t, rfl, h.1, (segmentByte_facts c h.2.1).2⟩, ?_⟩
    intro d hd
    rcases List.mem_cons.1 hd with rfl | hd
    · exact h.2.1
    · exact h.2.2 d hd

theorem pathOf_bytes (segs : List GoString) (h : segs.all segmentOk = true) :
    ∀ c ∈ pathOf segs, urlByte c = true := by
  induction segs with
  | nil => simp [pathOf]
  | cons s segs ih =>
    simp only [List.all_cons, Bool.and_eq_true] at h
    intro c hc
    simp only [pathOf, List.mem_cons, List.mem_append] at hc
    rcases hc with (rfl | hc) | hc
    · decide
    · exact (segmentByte_facts c ((segment_bytes s h.1).2 c hc)).1
    · exact ih h.2 c hc

theorem pathOf_head (segs : List GoString) : pathOf segs = [] ∨ ∃ t, pathOf segs = '/' :: t := by
  cases segs with
  | nil => exact Or.inl rfl
  | cons s segs => exact Or.inr ⟨_, rfl⟩

theorem hostport_bytes (host port : GoString) (hh : hostOk host = true) (hp : portOk port = true) :
    ∀ c ∈ host ++ port, urlByte c = true ∧ c ≠ '/' ∧ c ≠ '@' ∧ c ≠ '%' ∧ c ≠ '+' ∧
      shouldEscape c encodeHost = false := by
  intro c hc
  rcases List.mem_append.1 hc with hc | hc
  · have hb := (host_bytes host hh).2 c hc
    have f := hostByte_facts c hb
    exact ⟨f.1, f.2.1, f.2.2.1, f.2.2.2.2.2.2, f.2.2.2.2.2.1, hostByte_shouldEscape c hb⟩
  · rcases port_cases port hp with rfl | ⟨ds, rfl, hd⟩
    · simp at hc
    · rcases List.mem_cons.1 hc with rfl | hc
      · decide
      · have hb := digit_hostByte c (hd c hc)
        have f := hostByte_facts c hb
        exact ⟨f.1, f.2.1, f.2.2.1, f.2.2.2.2.2.2, f.2.2.2.2.2.1, hostByte_shouldEscape c hb⟩

theorem parseHost_plain (host port : GoString) (hh : hostOk host = true) (hp : portOk port = true) :
    parseHost (host ++ port) = .ok (host ++ port) := by
  have hb := hostport_bytes host port hh hp
  have hu : unescape (host ++ port) encodeHost = .ok (host ++ port) :=
    unescape_host _ (fun c hc => ⟨(hb c hc).2.2.2.1, (hb c hc).2.2.2.2.1, (hb c hc).2.2.2.2.2⟩)
  obtain ⟨hne, hhost⟩ := host_bytes host hh
  have hpre : Strings.HasPrefix (host ++ port) ['['] = false := by
    cases host with
    | nil => exact absurd rfl hne
    | cons c t =>
      have := (hostByte_facts c (hhost c (List.mem_cons_self _ _))).2.2.2.1
      simp [Strings.HasPrefix, List.isPrefixOf, Ne.symm this]
  unfold parseHost
  rw [hpre]
  simp only [Bool.false_eq_true, if_false]
  rcases port_cases port hp with rfl | ⟨ds, rfl, hd⟩
  · have : ':' ∉ host ++ [] := by
      intro hm
      simp only [List.append_nil] at hm
      exact (hostByte_facts _ (hhost _ hm)).2.2.2.2.1 rfl
    rw [LastIndex_single_none _ _ this]
    exact hu
  · have : ':' ∉ ds := by
      intro hm
      have := hd _ hm
      revert this
      decide
    rw [LastIndex_single_append _ _ _ this]
    have hv : validOptionalPort (':' :: ds) = true := by
      simp only [validOptionalPort, ne_eq, not_true_eq_false, if_false, List.all_eq_true]
      intro d hdm
      have := hd d hdm
      simp only [char_le_iff, char_lt_iff, gt_iff_lt] at this ⊢
      simp at this ⊢
      omega
    simp only [List.drop_left, hv, Bool.not_true, Bool.false_eq_true, if_false]
    exact hu

theorem parseAuthority_plain (host port : GoString) (hh : hostOk host = true)
    (hp : portOk port = true) :
    parseAuthority (host ++ port) = .ok (none, host ++ port) := by
  have hb := hostport_bytes host port hh hp
  have : '@' ∉ host ++ port := fun hm => (hb _ hm).2.2.1 rfl
  unfold parseAuthority
  simp only [LastIndex_single_none _ _ this, parseHost_plain host port hh hp]

theorem text_bytes (r : PlainRoot) (h : r.ok = true) : ∀ c ∈ r.text, urlByte c = true := by
  simp only [PlainRoot.ok, Bool.decide_and, Bool.and_eq_true, decide_eq_true_eq] at h
  obtain ⟨hs, hh, hp, hsegs⟩ := h
  intro c hc
  simp only [PlainRoot.text, List.mem_append, List.mem_cons, List.mem_singleton,
    List.not_mem_nil, or_false] at hc
  rcases hc with (((hc | hc) | hc) | hc) | hc
  · exact ((scheme_bytes _ hs).2 c hc).1
  · rcases hc with rfl | rfl | rfl <;> decide
  · exact (hostport_bytes _ _ hh hp c (List.mem_append_left _ hc)).1
  · exact (hostport_bytes _ _ hh hp c (List.mem_append_right _ hc)).1
  · exact pathOf_bytes _ hsegs c hc

theorem setPath_plain (u : URL) (p : GoString) (h : ∀ c ∈ p, urlByte c = true) :
    u.setPath p = .ok { u with Path := p, RawPath := [] } := by
  have h1 : unescape p encodePath = .ok p :=
    unescape_path p (fun hm => (urlByte_facts _ (h _ hm)).2.2.1 rfl)
  have h2 : escape p encodePath = p := escape_id p _ (fun c hc => urlByte_shouldEscape c (h c hc))
  simp [URL.setPath, h1, h2]

theorem parse_plain (r : PlainRoot) (h : r.ok = true) :
    parse r.text false =
      .ok { Scheme := r.scheme, Host := r.host ++ r.port, Path := pathOf r.segments } := by
  have hbytes := text_bytes r h
  have hok := h
  simp only [PlainRoot.ok, Bool.decide_and, Bool.and_eq_true, decide_eq_true_eq] at h
  obtain ⟨hs, hh, hp, hsegs⟩ := h
  obtain ⟨hsne, hsb⟩ := scheme_bytes _ hs
  have htext : r.text = r.scheme ++ ':' :: '/' :: '/' :: (r.host ++ r.port ++ pathOf r.segments) := by
    simp [PlainRoot.text]
  have hctl := noCTL _ hbytes
  have hstar : r.text ≠ ['*'] := by
    intro e
    have := hbytes '*' (by rw [e]; simp)
    revert this; decide
  have hq : '?' ∉ '/' :: '/' :: (r.host ++ r.port ++ pathOf r.segments) := by
    intro hm
    have : '?' ∈ r.text := by rw [htext]; simp only [List.mem_append]; exact Or.inr (List.mem_cons_of_mem _ hm)
    exact (urlByte_facts _ (hbytes _ this)).2.1 rfl
  have hcount : Strings.CountByte ('/' :: '/' :: (r.host ++ r.port ++ pathOf r.segments)) '?' = 0 := by
    unfold Strings.CountByte
    exact List.count_eq_zero.2 hq
  have hlow := ToLower_id r.scheme (fun c hc => (hsb c hc).2)
  have hhp := hostport_bytes _ _ hh hp
  have hsq : splitQuery ('/' :: '/' :: (r.host ++ r.port ++ pathOf r.segments)) =
      (false, '/' :: '/' :: (r.host ++ r.port ++ pathOf r.segments), []) := by
    unfold splitQuery
    rw [hcount, Cut_single_none _ _ hq]
    simp
  have hauth : splitAuthority ('/' :: '/' :: (r.host ++ r.port ++ pathOf r.segments)) =
      (r.host ++ r.port, pathOf r.segments) := by
    have hns : '/' ∉ r.host ++ r.port := fun hm => (hhp _ hm).2.1 rfl
    unfold splitAuthority
    simp only [List.drop_succ_cons, List.drop_zero]
    rcases pathOf_head r.segments with e | ⟨t, e⟩
    · rw [e, List.append_nil, Index_single_none _ _ hns]
    · rw [e, Index_single_append _ _ _ hns]
      simp only [List.take_left, List.drop_left]
  have hstar2 : ¬ (r.scheme ++ ':' :: '/' :: '/' :: (r.host ++ r.port ++ pathOf r.segments) = ['*']) := by
    rw [← htext]; exact hstar
  have hpre1 : Strings.HasPrefix ('/' :: '/' :: (r.host ++ r.port ++ pathOf r.segments)) ['/'] = true := by
    simp [Strings.HasPrefix, List.isPrefixOf]
  have hpre2 : Strings.HasPrefix ('/' :: '/' :: (r.host ++ r.port ++ pathOf r.segments)) ['/', '/'] = true := by
    simp [Strings.HasPrefix, List.isPrefixOf]
  unfold parse
  rw [hctl, htext, getScheme_plain _ _ hs]
  simp only [hlow, hsq, hauth, parseAuthority_plain _ _ hh hp, hstar2, hpre1, hpre2]
  rw [setPath_plain _ _ (pathOf_bytes _ hsegs)]
  simp [hsne]

/-- What `url.Parse` makes of a plain root: its scheme, its host with the port,
and its path, with nothing else set. -/
theorem Parse_plain (r : PlainRoot) (h : r.ok = true) :
    Parse r.text =
      .ok { Scheme := r.scheme, Host := r.host ++ r.port, Path := pathOf r.segments } := by
  have hbytes := text_bytes r h
  have hf : '#' ∉ r.text := fun hm => (urlByte_facts _ (hbytes _ hm)).1 rfl
  unfold Parse
  simp only [Cut_single_none _ _ hf, parse_plain r h, if_true]

theorem dropWhile_length_le (p : Char → Bool) (l : GoString) : (l.dropWhile p).length ≤ l.length := by
  induction l with
  | nil => simp
  | cons a t ih =>
    simp only [List.dropWhile_cons]
    split
    · exact Nat.le_succ_of_le ih
    · exact Nat.le_refl _

/-- The loop of `path.Clean` never runs out of fuel: any two amounts of fuel
that are at least the number of bytes left give the same result. -/
theorem cleanLoop_fuel (rooted : Bool) (n : Nat) :
    ∀ (rest : GoString), rest.length ≤ n → ∀ (f1 f2 : Nat), rest.length ≤ f1 → rest.length ≤ f2 →
      ∀ (out : GoString) (dd : Nat),
        cleanLoop rooted f1 rest out dd = cleanLoop rooted f2 rest out dd := by
  induction n with
  | zero =>
    intro rest hn f1 f2 _ _ out dd
    have : rest = [] := List.length_eq_zero.1 (Nat.le_zero.1 hn)
    subst this
    cases f1 <;> cases f2 <;> simp [cleanLoop]
  | succ n ih =>
    intro rest hn f1 f2 h1 h2 out dd
    cases rest with
    | nil => cases f1 <;> cases f2 <;> simp [cleanLoop]
    | cons c t =>
      simp only [List.length_cons] at hn h1 h2
      obtain ⟨g1, rfl⟩ : ∃ g, f1 = g + 1 := ⟨f1 - 1, by omega⟩
      obtain ⟨g2, rfl⟩ : ∃ g, f2 = g + 1 := ⟨f2 - 1, by omega⟩
      have ht : t.length ≤ n := by omega
      have htl : t.tail.length ≤ t.length := by simp
      simp only [cleanLoop]
      by_cases hc : c = '/'
      · simp only [hc, if_true]
        exact ih t ht g1 g2 (by omega) (by omega) out dd
      · have hp : decide (c ≠ '/') = true := by simp [hc]
        have hdl : ((c :: t).dropWhile (· ≠ '/')).length ≤ t.length := by
          rw [List.dropWhile_cons]
          simp only [hp, if_true]
          exact dropWhile_length_le _ t
        simp only [hc, if_false]
        repeat' split
        all_goals (apply ih <;> omega)

theorem cleanLoop_slash (rooted : Bool) (f : Nat) (t out : GoString) (dd : Nat) :
    cleanLoop rooted (f + 1) ('/' :: t) out dd = cleanLoop rooted f t out dd := by
  simp [cleanLoop]

theorem cleanLoop_nil (rooted : Bool) (f : Nat) (out : GoString) (dd : Nat) :
    cleanLoop rooted f [] out dd = out := by
  cases f <;> simp [cleanLoop]

theorem takeWhile_segment (seg rest : GoString) (h : '/' ∉ seg)
    (hr : rest = [] ∨ ∃ t, rest = '/' :: t) :
    (seg ++ rest).takeWhile (· ≠ '/') = seg ∧ (seg ++ rest).dropWhile (· ≠ '/') = rest := by
  induction seg with
  | nil =>
    rcases hr with rfl | ⟨t, rfl⟩ <;> simp
  | cons c t ih =>
    simp only [List.mem_cons, not_or] at h
    have hc : c ≠ '/' := fun e => h.1 e.symm
    have := ih h.2
    have hp : decide (c ≠ '/') = true := by simp [hc]
    simp only [List.cons_append, List.takeWhile_cons, List.dropWhile_cons, hp, if_true, this.1,
      this.2, and_self]

theorem plainElement_facts (s : GoString) (h : plainElement s = true) :
    ∃ c t, s = c :: t ∧ c ≠ '.' ∧ c ≠ '/' ∧ '/' ∉ c :: t := by
  cases s with
  | nil => simp [plainElement] at h
  | cons c t =>
    simp only [plainElement, Bool.decide_and, Bool.and_eq_true, decide_eq_true_eq,
      List.all_eq_true, ne_eq, decide_not, Bool.not_eq_true', decide_eq_false_iff_not] at h
    refine ⟨c, t, rfl, h.1, h.2 c (List.mem_cons_self _ _), ?_⟩
    intro hm
    exact h.2 _ hm rfl

theorem segmentOk_plainElement (s : GoString) (h : segmentOk s = true) :
    plainElement s = true := by
  obtain ⟨⟨c, t, rfl, hdot, _⟩, hb⟩ := segment_bytes _ h
  simp only [plainElement, Bool.decide_and, Bool.and_eq_true, decide_eq_true_eq,
    List.all_eq_true, ne_eq, decide_not, Bool.not_eq_true', decide_eq_false_iff_not]
  exact ⟨hdot, fun d hd => (segmentByte_facts d (hb d hd)).2⟩

theorem segments_plain (segs : List GoString) (h : segs.all segmentOk = true) :
    segs.all plainElement = true := by
  rw [List.all_eq_true] at h ⊢
  exact fun s hs => segmentOk_plainElement s (h s hs)

/-- The loop copies a real path element and goes on behind it. -/
theorem cleanLoop_segment (f : Nat) (seg rest out : GoString) (dd : Nat)
    (hseg : plainElement seg = true) (hr : rest = [] ∨ ∃ t, rest = '/' :: t)
    (hf : (seg ++ rest).length ≤ f) :
    cleanLoop true f (seg ++ rest) out dd =
      cleanLoop true rest.length rest
        ((if out.length ≠ 1 then out ++ ['/'] else out) ++ seg) dd := by
  obtain ⟨c, t, rfl, hdot, hsl, hns⟩ := plainElement_facts seg hseg
  obtain ⟨g, rfl⟩ : ∃ g, f = g + 1 := ⟨f - 1, by simp at hf; omega⟩
  have htd := takeWhile_segment (c :: t) rest hns hr
  simp only [List.cons_append] at htd hf ⊢
  simp only [cleanLoop, hsl, hdot, if_false, false_and, htd.1, htd.2]
  simp only [Bool.not_true, Bool.false_eq_true, false_and, or_false, true_and]
  apply cleanLoop_fuel true rest.length rest (Nat.le_refl _)
  · simp at hf; omega
  · exact Nat.le_refl _

theorem pathOf_append (a b : List GoString) : pathOf (a ++ b) = pathOf a ++ pathOf b := by
  induction a with
  | nil => rfl
  | cons s a ih => simp [pathOf, ih]

/-- The loop copies a run of plain segments behind a buffer that already holds an element. -/
theorem cleanLoop_segments (segs : List GoString) (hsegs : segs.all plainElement = true) :
    ∀ (f : Nat) (rest out : GoString) (dd : Nat), (rest = [] ∨ ∃ t, rest = '/' :: t) →
      2 ≤ out.length → (pathOf segs ++ rest).length ≤ f →
      cleanLoop true f (pathOf segs ++ rest) out dd =
        cleanLoop true rest.length rest (out ++ pathOf segs) dd := by
  induction segs with
  | nil =>
    intro f rest out dd _ _ hf
    simp only [pathOf, List.nil_append, List.append_nil] at hf ⊢
    exact cleanLoop_fuel true rest.length rest (Nat.le_refl _) _ _ hf (Nat.le_refl _) _ _
  | cons s segs ih =>
    intro f rest out dd hr hout hf
    simp only [List.all_cons, Bool.and_eq_true] at hsegs
    have hr2 : pathOf segs ++ rest = [] ∨ ∃ t, pathOf segs ++ rest = '/' :: t := by
      rcases pathOf_head segs with e | ⟨t, e⟩
      · rw [e]; simpa using hr
      · rw [e]; exact Or.inr ⟨_, rfl⟩
    obtain ⟨g, rfl⟩ : ∃ g, f = g + 1 := ⟨f - 1, by simp [pathOf] at hf; omega⟩
    have e1 : pathOf (s :: segs) ++ rest = '/' :: (s ++ (pathOf segs ++ rest)) := by
      simp [pathOf]
    rw [e1, cleanLoop_slash]
    rw [e1] at hf
    rw [cleanLoop_segment g s _ out dd hsegs.1 hr2 (by simpa using hf)]
    have hne : out.length ≠ 1 := by omega
    simp only [hne, ne_eq, not_false_eq_true, if_true]
    rw [ih hsegs.2 _ rest _ dd hr (by simp; omega) (Nat.le_refl _)]
    simp [pathOf]

/-- From the root, the loop copies a run of plain segments as it is. -/
theorem cleanLoop_first (segs : List GoString) (hsegs : segs.all plainElement = true)
    (hne : segs ≠ []) (f : Nat) (rest : GoString) (hr : rest = [] ∨ ∃ t, rest = '/' :: t)
    (hf : (pathOf segs ++ rest).length ≤ f) :
    cleanLoop true f (pathOf segs ++ rest) ['/'] 1 =
      cleanLoop true rest.length rest (pathOf segs) 1 := by
  cases segs with
  | nil => exact absurd rfl hne
  | cons s segs =>
    simp only [List.all_cons, Bool.and_eq_true] at hsegs
    have hr2 : pathOf segs ++ rest = [] ∨ ∃ t, pathOf segs ++ rest = '/' :: t := by
      rcases pathOf_head segs with e | ⟨t, e⟩
      · rw [e]; simpa using hr
      · rw [e]; exact Or.inr ⟨_, rfl⟩
    obtain ⟨g, rfl⟩ : ∃ g, f = g + 1 := ⟨f - 1, by simp [pathOf] at hf; omega⟩
    have e1 : pathOf (s :: segs) ++ rest = '/' :: (s ++ (pathOf segs ++ rest)) := by
      simp [pathOf]
    rw [e1, cleanLoop_slash]
    rw [e1] at hf
    rw [cleanLoop_segment g s _ ['/'] 1 hsegs.1 hr2 (by simpa using hf)]
    have hs : s ≠ [] := by
      obtain ⟨c, t, rfl, _⟩ := plainElement_facts s hsegs.1
      simp
    have hlen : 2 ≤ (['/'] ++ s).length := by
      have := List.length_pos.2 hs
      simp; omega
    simp only [List.length_singleton, ne_eq, not_true_eq_false, if_false]
    rw [cleanLoop_segments segs hsegs.2 _ rest _ 1 hr hlen (Nat.le_refl _)]
    simp [pathOf]

/-- Cleaning a path of plain segments followed by a route of plain segments. -/
theorem Clean_join (segs route : List GoString) (h1 : segs.all plainElement = true)
    (h2 : route.all plainElement = true) (hne : segs ≠ []) :
    Clean (pathOf segs ++ '/' :: pathOf route) = pathOf segs ++ pathOf route := by
  obtain ⟨t, ht⟩ : ∃ t, pathOf segs = '/' :: t := by
    cases segs with
    | nil => exact absurd rfl hne
    | cons s segs => exact ⟨_, rfl⟩
  have hne2 : pathOf segs ++ '/' :: pathOf route ≠ [] := by rw [ht]; simp
  have key : cleanLoop true (pathOf segs ++ '/' :: pathOf route).length
      ((pathOf segs ++ '/' :: pathOf route).drop 1) ['/'] 1 = pathOf segs ++ pathOf route := by
    have e : (pathOf segs ++ '/' :: pathOf route).drop 1 = t ++ '/' :: pathOf route := by
      rw [ht]; rfl
    rw [e, ← cleanLoop_slash true _ (t ++ '/' :: pathOf route) ['/'] 1]
    have e2 : '/' :: (t ++ '/' :: pathOf route) = pathOf segs ++ '/' :: pathOf route := by
      rw [ht]; rfl
    rw [e2, cleanLoop_first segs h1 hne _ _ (Or.inr ⟨_, rfl⟩) (by omega)]
    obtain ⟨g, hg⟩ : ∃ g, ('/' :: pathOf route).length = g + 1 := ⟨_, rfl⟩
    rw [hg, cleanLoop_slash]
    have hlen : 2 ≤ (pathOf segs).length := by
      cases segs with
      | nil => exact absurd rfl hne
      | cons s segs =>
        simp only [List.all_cons, Bool.and_eq_true] at h1
        obtain ⟨c, t, rfl, _⟩ := plainElement_facts s h1.1
        simp [pathOf]
    have := cleanLoop_segments route h2 g [] (pathOf segs) 1 (Or.inl rfl) hlen
      (by simp at hg ⊢; omega)
    simp only [List.append_nil] at this
    rw [this, cleanLoop_nil]
  have hhead : (pathOf segs ++ '/' :: pathOf route).head? = some '/' := by rw [ht]; rfl
  unfold Clean
  have : (pathOf segs ++ pathOf route).length ≠ 0 := by rw [ht]; simp
  simp only [hne2, if_false, hhead, decide_True, if_true, key, this]

/-- Cleaning the root path followed by a route of plain segments. -/
theorem Clean_join_root (route : List GoString) (h2 : route.all plainElement = true)
    (hr : route ≠ []) :
    Clean ('/' :: '/' :: pathOf route) = pathOf route := by
  obtain ⟨t, ht⟩ : ∃ t, pathOf route = '/' :: t := by
    cases route with
    | nil => exact absurd rfl hr
    | cons s segs => exact ⟨_, rfl⟩
  have key : cleanLoop true ('/' :: '/' :: pathOf route).length
      (('/' :: '/' :: pathOf route).drop 1) ['/'] 1 = pathOf route := by
    have e : ('/' :: '/' :: pathOf route).drop 1 = '/' :: pathOf route := rfl
    obtain ⟨g, hg⟩ : ∃ g, ('/' :: '/' :: pathOf route).length = g + 1 := ⟨_, rfl⟩
    rw [e, hg, cleanLoop_slash]
    have := cleanLoop_first route h2 hr g [] (Or.inl rfl) (by simp at hg ⊢; omega)
    simp only [List.append_nil] at this
    rw [this, cleanLoop_nil]
  have : (pathOf route).length ≠ 0 := by rw [ht]; simp
  have hne2 : '/' :: '/' :: pathOf route ≠ [] := by simp
  have hhead : ('/' :: '/' :: pathOf route).head? = some '/' := rfl
  unfold Clean
  simp only [hne2, if_false, hhead, decide_True, if_true, key, this]

theorem EscapedPath_plain (u : URL) (hraw : u.RawPath = []) (h : ∀ c ∈ u.Path, urlByte c = true) :
    u.EscapedPath = u.Path := by
  have hstar : u.Path ≠ ['*'] := by
    intro e
    have := h '*' (by rw [e]; simp)
    revert this; decide
  have h2 : escape u.Path encodePath = u.Path :=
    escape_id _ _ (fun c hc => urlByte_shouldEscape c (h c hc))
  simp [URL.EscapedPath, hraw, hstar, h2]

theorem String_plain (s hp p : GoString) (hs : s ≠ []) (hh : hp ≠ [])
    (hhb : ∀ c ∈ hp, shouldEscape c encodeHost = false) (hpb : ∀ c ∈ p, urlByte c = true) :
    URL.String { Scheme := s, Host := hp, Path := p } =
      s ++ [':', '/', '/'] ++ hp ++ (if p ≠ [] ∧ p.head? ≠ some '/' then ['/'] else []) ++ p := by
  have he := EscapedPath_plain { Scheme := s, Host := hp, Path := p } rfl hpb
  have hesc : escape hp encodeHost = hp := escape_id _ _ hhb
  unfold URL.String URL.schemePart URL.authorityPart URL.pathPart
  simp only [he, hesc]
  by_cases hc : p ≠ [] ∧ p.head? ≠ some '/'
  · simp [hs, hh, hc]
  · simp [hs, hh, hc]

theorem pathOf_last (route : List GoString) (h : route.all plainElement = true)
    (hne : route ≠ []) :
    Strings.HasSuffix (pathOf route) ['/'] = false := by
  obtain ⟨init, x, e, hx⟩ : ∃ init x, pathOf route = init ++ [x] ∧ x ≠ '/' := by
    induction route with
    | nil => exact absurd rfl hne
    | cons s route ih =>
      simp only [List.all_cons, Bool.and_eq_true] at h
      by_cases hr : route = []
      · subst hr
        obtain ⟨c, t, rfl, _, _, hns⟩ := plainElement_facts s h.1
        have hne2 : c :: t ≠ [] := by simp
        refine ⟨'/' :: (c :: t).dropLast, (c :: t).getLast hne2, ?_, ?_⟩
        · simp only [pathOf, List.append_nil, List.cons_append]
          rw [List.dropLast_append_getLast]
        · intro e
          exact hns (e ▸ List.getLast_mem hne2)
      · obtain ⟨init, x, e, hx⟩ := ih h.2 hr
        exact ⟨'/' :: s ++ init, x, by simp [pathOf, e], hx⟩
  have hx2 : ¬ ('/' = x) := fun e => hx e.symm
  simp [Strings.HasSuffix, List.isSuffixOf, e, List.isPrefixOf, hx2]

/-- Joining a route of plain segments to a plain root appends the route. -/
theorem JoinPath_plain (r : PlainRoot) (h : r.ok = true) (route : List GoString)
    (hroute : route.all segmentOk = true) (hrne : route ≠ []) :
    Url.JoinPath r.text [pathOf route] = (r.text ++ pathOf route, none) := by
  have hP := Parse_plain r h
  have hok := h
  simp only [PlainRoot.ok, Bool.decide_and, Bool.and_eq_true, decide_eq_true_eq] at h
  obtain ⟨hs, hh, hp, hsegs⟩ := h
  obtain ⟨hsne, -⟩ := scheme_bytes _ hs
  obtain ⟨hhne, -⟩ := host_bytes _ hh
  have hhp := hostport_bytes _ _ hh hp
  have hpb := pathOf_bytes _ hsegs
  have hrb := pathOf_bytes _ hroute
  have hrp := segments_plain route hroute
  have hsp := segments_plain r.segments hsegs
  have hsuf := pathOf_last route hrp hrne
  obtain ⟨rc, rt, hrt, hrc⟩ : ∃ c t, pathOf route = '/' :: c :: t ∧ c ≠ '/' := by
    cases route with
    | nil => exact absurd rfl hrne
    | cons s segs =>
      simp only [List.all_cons, Bool.and_eq_true] at hroute
      obtain ⟨⟨c, t, rfl, _, hc⟩, _⟩ := segment_bytes s hroute.1
      exact ⟨c, t ++ pathOf segs, by simp [pathOf], hc⟩
  have hE := EscapedPath_plain
    { Scheme := r.scheme, Host := r.host ++ r.port, Path := pathOf r.segments } rfl hpb
  have hhpne : r.host ++ r.port ≠ [] := by simp [hhne]
  unfold Url.JoinPath
  rw [hP]
  simp only
  congr 1
  unfold URL.JoinPath
  simp only [hE]
  by_cases hseg : r.segments = []
  · -- the root has no path
    have hJ : Path.Join [['/'] ++ pathOf r.segments, pathOf route] = pathOf route := by
      rw [hseg]
      have : Path.joinBuf [] [['/'] ++ pathOf [], pathOf route] = '/' :: '/' :: pathOf route := by
        simp [Path.joinBuf, pathOf]
      unfold Path.Join
      rw [this, Clean_join_root route hrp hrne]
      simp [pathOf]
    have hrel : Strings.HasPrefix (pathOf r.segments) ['/'] = false := by
      rw [hseg]; rfl
    simp only [hrel, Bool.not_false, if_true, hJ, List.getLastD_cons, List.getLastD_nil, hsuf,
      Bool.false_eq_true, false_and, if_false]
    have hb : ∀ c ∈ (pathOf route).drop 1, urlByte c = true :=
      fun c hc => hrb c (List.mem_of_mem_drop hc)
    rw [setPath_plain _ _ hb]
    simp only
    rw [String_plain _ _ _ hsne hhpne (fun c hc => (hhp c hc).2.2.2.2.2) hb]
    have hsl : ¬ (rc = '/') := hrc
    simp [PlainRoot.text, hseg, pathOf, hrt, hsl]
  · -- the root has a path
    obtain ⟨pt, hpt⟩ : ∃ t, pathOf r.segments = '/' :: t := by
      cases hsg : r.segments with
      | nil => exact absurd hsg hseg
      | cons s segs => exact ⟨_, rfl⟩
    have hJ : Path.Join [pathOf r.segments, pathOf route] = pathOf r.segments ++ pathOf route := by
      have : Path.joinBuf [] [pathOf r.segments, pathOf route] =
          pathOf r.segments ++ '/' :: pathOf route := by
        simp [Path.joinBuf, hpt, hrt]
      have hsum : ¬ (([pathOf r.segments, pathOf route].map List.length).sum = 0) := by
        simp [hpt]
      unfold Path.Join
      rw [if_neg hsum, this, Clean_join r.segments route hsp hrp hseg]
    have hrel : Strings.HasPrefix (pathOf r.segments) ['/'] = true := by
      rw [hpt]; simp [Strings.HasPrefix, List.isPrefixOf]
    simp only [hrel, Bool.not_true, Bool.false_eq_true, if_false, hJ, List.getLastD_cons,
      List.getLastD_nil, hsuf, false_and]
    have hb : ∀ c ∈ pathOf r.segments ++ pathOf route, urlByte c = true := by
      intro c hc
      rcases List.mem_append.1 hc with hc | hc
      · exact hpb c hc
      · exact hrb c hc
    rw [setPath_plain _ _ hb]
    simp only
    rw [String_plain _ _ _ hsne hhpne (fun c hc => (hhp c hc).2.2.2.2.2) hb]
    simp [PlainRoot.text, hpt]

/-! ### Non-empty results -/

theorem escape_ne_nil (s : GoString) (mode : encoding) (h : s ≠ []) : escape s mode ≠ [] := by
  cases s with
  | nil => exact absurd rfl h
  | cons c t =>
    unfold escape
    simp only
    split
    · simp
    · split
      · simp
      · unfold escapeLoop
        split
        · simp
        · split <;> simp

theorem unescape_ne_nil (s q : GoString) (mode : encoding) (h : s ≠ [])
    (hq : unescape s mode = .ok q) : q ≠ [] := by
  cases s with
  | nil => exact absurd rfl h
  | cons c t =>
    unfold unescape at hq
    cases hc : unescapeCheck mode (c :: t) 0 false with
    | error e => simp [hc] at hq
    | ok r =>
      obtain ⟨n, hp⟩ := r
      simp only [hc] at hq
      split at hq
      · cases hq; simp
      · cases hq
        rw [unescapeCheck.eq_def] at hc
        simp only at hc
        rw [unescapeDecode.eq_def]
        simp only
        by_cases hpc : c = '%'
        · simp only [hpc, if_true] at hc ⊢
          cases t with
          | nil => simp at hc
          | cons a t =>
            cases t with
            | nil => simp at hc
            | cons b t => simp
        · simp only [hpc, if_false]
          split <;> simp

theorem EscapedPath_ne_nil (u : URL) (h : u.Path ≠ []) : u.EscapedPath ≠ [] := by
  unfold URL.EscapedPath
  split
  · rename_i hc; exact hc.1
  · split
    · simp
    · exact escape_ne_nil _ _ h

theorem String_ne_nil (u : URL) (h : u.Opaque ≠ [] ∨ u.EscapedPath ≠ []) : u.String ≠ [] := by
  have body : (if u.Opaque ≠ [] then u.Opaque
      else u.authorityPart ++ u.pathPart (u.schemePart ++ u.authorityPart)) ≠ [] := by
    by_cases ho : u.Opaque = []
    · have hp := h.resolve_left (fun h' => h' ho)
      simp [ho, URL.pathPart, hp]
    · simp [ho]
  unfold URL.String
  intro e
  simp only [List.append_eq_nil] at e
  exact body e.1.1.2

theorem dropWhile_append_slash (x rest : GoString) :
    (x ++ '/' :: rest).dropWhile (· ≠ '/') = x.dropWhile (· ≠ '/') ++ '/' :: rest := by
  induction x with
  | nil => simp
  | cons c t ih =>
    by_cases hc : c = '/'
    · simp [hc]
    · have hp : decide (c ≠ '/') = true := by simp [hc]
      simp only [List.cons_append, List.dropWhile_cons, hp, if_true, ih]

/-- The loop, started on a route of plain elements, ends with the route in the buffer. -/
theorem cleanLoop_route (route : List GoString) (h : route.all plainElement = true)
    (hne : route ≠ []) (f : Nat) (out : GoString) (dd : Nat)
    (hf : (pathOf route).length ≤ f) :
    ∃ pre, cleanLoop true f (pathOf route) out dd = pre ++ (pathOf route).drop 1 := by
  cases route with
  | nil => exact absurd rfl hne
  | cons s route =>
    simp only [List.all_cons, Bool.and_eq_true] at h
    obtain ⟨g, rfl⟩ : ∃ g, f = g + 1 := ⟨f - 1, by simp [pathOf] at hf; omega⟩
    have e1 : pathOf (s :: route) = '/' :: (s ++ pathOf route) := by simp [pathOf]
    rw [e1] at hf ⊢
    rw [cleanLoop_slash, cleanLoop_segment g s _ out dd h.1 (pathOf_head route)
      (by simpa using hf)]
    obtain ⟨c, t, rfl, _⟩ := plainElement_facts s h.1
    have hlen : 2 ≤ ((if out.length ≠ 1 then out ++ ['/'] else out) ++ c :: t).length := by
      split <;> simp <;> omega
    have := cleanLoop_segments route h.2 (pathOf route).length [] _ dd (Or.inl rfl) hlen
      (by simp)
    simp only [List.append_nil] at this
    rw [this, cleanLoop_nil]
    exact ⟨if out.length ≠ 1 then out ++ ['/'] else out, by simp⟩

/-- Whatever precedes it, a route of plain elements that is joined last ends up
at the end of the cleaned path. -/
theorem cleanLoop_any_base (route : List GoString) (h : route.all plainElement = true)
    (hne : route ≠ []) (n : Nat) :
    ∀ (x : GoString), x.length ≤ n → ∀ (f : Nat) (out : GoString) (dd : Nat),
      (x ++ '/' :: pathOf route).length ≤ f →
      ∃ pre, cleanLoop true f (x ++ '/' :: pathOf route) out dd = pre ++ (pathOf route).drop 1 := by
  induction n with
  | zero =>
    intro x hx f out dd hf
    have : x = [] := List.length_eq_zero.1 (Nat.le_zero.1 hx)
    subst this
    obtain ⟨g, rfl⟩ : ∃ g, f = g + 1 := ⟨f - 1, by simp at hf; omega⟩
    simp only [List.nil_append, cleanLoop_slash]
    exact cleanLoop_route route h hne g out dd (by simp at hf; omega)
  | succ n ih =>
    intro x hx f out dd hf
    cases x with
    | nil =>
      obtain ⟨g, rfl⟩ : ∃ g, f = g + 1 := ⟨f - 1, by simp at hf; omega⟩
      simp only [List.nil_append, cleanLoop_slash]
      exact cleanLoop_route route h hne g out dd (by simp at hf; omega)
    | cons c t =>
      obtain ⟨g, rfl⟩ : ∃ g, f = g + 1 := ⟨f - 1, by simp at hf; omega⟩
      simp only [List.length_cons, List.cons_append, List.length_append] at hx hf
      have hfg : (t ++ '/' :: pathOf route).length ≤ g := by simp; omega
      rw [List.cons_append]
      simp only [cleanLoop]
      by_cases h1 : c = '/'
      · simp only [h1, if_true]
        exact ih t (by omega) g _ _ hfg
      · have hp : decide (c ≠ '/') = true := by simp [h1]
        have hdw : ((c :: (t ++ '/' :: pathOf route)).dropWhile (· ≠ '/')) =
            t.dropWhile (· ≠ '/') ++ '/' :: pathOf route := by
          rw [List.dropWhile_cons]
          simp only [hp, if_true]
          exact dropWhile_append_slash t _
        have hdl := dropWhile_length_le (· ≠ '/') t
        have htail : (c = '.' ∧ (t ++ '/' :: pathOf route).head? = some '.' ∧
            ((t ++ '/' :: pathOf route).tail = [] ∨
              (t ++ '/' :: pathOf route).tail.head? = some '/')) →
            ∀ (o : GoString) (d : Nat), ∃ pre,
              cleanLoop true g (t ++ '/' :: pathOf route).tail o d =
                pre ++ (pathOf route).drop 1 := by
          intro h3 o d
          obtain ⟨t2, rfl⟩ : ∃ t2, t = '.' :: t2 := by
            cases t with
            | nil => simp at h3
            | cons a t2 =>
              have : a = '.' := by simpa using h3.2.1
              exact ⟨t2, by rw [this]⟩
          exact ih t2 (by simp at hx; omega) g _ _ (by simp at hfg ⊢; omega)
        simp only [h1, if_false, hdw, Bool.not_true, Bool.false_eq_true, false_and, or_false,
          true_and]
        split_ifs with h2 h3 h4 h5
        · exact ih t (by omega) g _ _ hfg
        · exact htail h3 _ _
        · exact htail h3 _ _
        · exact ih _ (by omega) g _ _
            (by simp only [List.length_append, List.length_cons] at hfg ⊢; omega)
        · exact ih _ (by omega) g _ _
            (by simp only [List.length_append, List.length_cons] at hfg ⊢; omega)

theorem Clean_any_base (route : List GoString) (h : route.all plainElement = true)
    (hne : route ≠ []) (x : GoString) :
    ∃ pre, Clean ('/' :: x ++ '/' :: pathOf route) = pre ++ (pathOf route).drop 1 := by
  obtain ⟨pre, hpre⟩ := cleanLoop_any_base route h hne x.length x (Nat.le_refl _)
    ('/' :: x ++ '/' :: pathOf route).length ['/'] 1 (by simp)
  obtain ⟨c, t, hct⟩ : ∃ c t, (pathOf route).drop 1 = c :: t := by
    cases route with
    | nil => exact absurd rfl hne
    | cons s route =>
      simp only [List.all_cons, Bool.and_eq_true] at h
      obtain ⟨c, t, rfl, _⟩ := plainElement_facts s h.1
      exact ⟨c, t ++ pathOf route, by simp [pathOf]⟩
  refine ⟨pre, ?_⟩
  have hne2 : '/' :: x ++ '/' :: pathOf route ≠ [] := by simp
  have hhead : ('/' :: x ++ '/' :: pathOf route).head? = some '/' := rfl
  have hd : ('/' :: x ++ '/' :: pathOf route).drop 1 = x ++ '/' :: pathOf route := rfl
  have hl : (pre ++ (pathOf route).drop 1).length ≠ 0 := by rw [hct]; simp
  unfold Clean
  simp only [hne2, if_false, hhead, decide_True, if_true, hd, hpre, hl]

theorem setPath_Path (u url : URL) (p : GoString) (hp : p ≠ []) (h : u.setPath p = .ok url) :
    url.Path ≠ [] := by
  unfold URL.setPath at h
  cases hq : unescape p encodePath with
  | error e => simp [hq] at h
  | ok q =>
    have hqne := unescape_ne_nil p q _ hp hq
    simp only [hq] at h
    split at h
    · cases h; exact hqne
    · cases h; exact hqne

/-- Joining a route of plain elements to any URL gives a URL that prints as a
non-empty string. -/
theorem JoinPath_String_ne_nil (u : URL) (route : List GoString)
    (h : route.all plainElement = true) (hlen : 3 ≤ (pathOf route).length)
    (hpct : '%' ∉ pathOf route) :
    (u.JoinPath [pathOf route]).String ≠ [] := by
  have hne : route ≠ [] := by
    intro e; rw [e] at hlen; simp [pathOf] at hlen
  have hsuf := pathOf_last route h hne
  obtain ⟨rt, hrt⟩ : ∃ t, pathOf route = '/' :: t := by
    cases route with
    | nil => exact absurd rfl hne
    | cons s segs => exact ⟨_, rfl⟩
  -- the joined path is not empty
  have hjoin : ∀ (x : GoString), ∃ pre,
      Path.Join [('/' :: x), pathOf route] = pre ++ (pathOf route).drop 1 := by
    intro x
    have hb : Path.joinBuf [] [('/' :: x), pathOf route] = '/' :: x ++ '/' :: pathOf route := by
      simp [Path.joinBuf, hrt]
    have hsum : ¬ (([('/' :: x), pathOf route].map List.length).sum = 0) := by simp
    unfold Path.Join
    rw [if_neg hsum, hb]
    exact Clean_any_base route h hne x
  have hfinish : ∀ (p : GoString), p ≠ [] → (u.Opaque ≠ [] ∨ u.EscapedPath ≠ [] ∨
      ∃ url, u.setPath p = .ok url) →
      (match u.setPath p with
        | .ok url => url
        | .error _ => u).String ≠ [] := by
    intro p hp hcase
    cases hs : u.setPath p with
    | ok url =>
      exact String_ne_nil _ (Or.inr (EscapedPath_ne_nil _ (setPath_Path u url p hp hs)))
    | error e =>
      rcases hcase with ho | he | ⟨url, hu⟩
      · exact String_ne_nil _ (Or.inl ho)
      · exact String_ne_nil _ (Or.inr he)
      · rw [hs] at hu; cases hu
  unfold URL.JoinPath
  simp only [List.getLastD_cons, List.getLastD_nil, hsuf, Bool.false_eq_true, false_and, if_false]
  by_cases hrel : Strings.HasPrefix u.EscapedPath ['/'] = true
  · obtain ⟨x, hx⟩ : ∃ x, u.EscapedPath = '/' :: x := by
      cases he : u.EscapedPath with
      | nil => rw [he] at hrel; simp [Strings.HasPrefix, List.isPrefixOf] at hrel
      | cons a x =>
        rw [he] at hrel
        simp [Strings.HasPrefix, List.isPrefixOf] at hrel
        exact ⟨x, by rw [hrel]⟩
    obtain ⟨pre, hpre⟩ := hjoin x
    simp only [hrel, Bool.not_true, Bool.false_eq_true, if_false]
    rw [hx, hpre]
    apply hfinish
    · intro e
      have := congrArg List.length e
      rw [hrt] at this hlen
      simp only [List.length_drop, List.length_append, List.length_nil, List.drop_succ_cons,
        List.drop_zero, List.length_cons] at this hlen
      omega
    · exact Or.inr (Or.inl (by rw [hx]; simp))
  · have hrel2 : Strings.HasPrefix u.EscapedPath ['/'] = false := by simpa using hrel
    obtain ⟨pre, hpre⟩ := hjoin u.EscapedPath
    simp only [hrel2, Bool.not_false, if_true, List.singleton_append]
    rw [hpre]
    apply hfinish
    · intro e
      have := congrArg List.length e
      rw [hrt] at this hlen
      simp only [List.length_drop, List.length_append, List.length_nil, List.drop_succ_cons,
        List.drop_zero, List.length_cons] at this hlen
      omega
    · by_cases he : u.EscapedPath = []
      · right; right
        have hJ : Path.Join [('/' :: u.EscapedPath), pathOf route] = pathOf route := by
          have hb : Path.joinBuf [] [('/' :: u.EscapedPath), pathOf route] =
              '/' :: '/' :: pathOf route := by
            simp [Path.joinBuf, hrt, he]
          have hsum : ¬ (([('/' :: u.EscapedPath), pathOf route].map List.length).sum = 0) := by
            simp
          unfold Path.Join
          rw [if_neg hsum, hb, Clean_join_root route h hne]
        rw [← hpre, hJ]
        have hnp : '%' ∉ (pathOf route).drop 1 := fun hm => hpct (List.mem_of_mem_drop hm)
        have hu := unescape_path _ hnp
        unfold URL.setPath
        rw [hu]
        simp only
        split <;> exact ⟨_, rfl⟩
      · exact Or.inr (Or.inl he)

/-! ### Roots in normal spelling -/

theorem escapeLoop_append (mode : encoding) (a b : GoString) :
    escapeLoop mode (a ++ b) = escapeLoop mode a ++ escapeLoop mode b := by
  induction a with
  | nil => simp [escapeLoop]
  | cons c t ih =>
    simp only [List.cons_append, escapeLoop]
    split
    · simp [ih]
    · split <;> simp [ih]

theorem escapeLoop_id (mode : encoding) (s : GoString)
    (h : ∀ c ∈ s, shouldEscape c mode = false) : escapeLoop mode s = s := by
  induction s with
  | nil => rfl
  | cons c t ih =>
    have hc := h c (List.mem_cons_self _ _)
    have ht := ih (fun d hd => h d (List.mem_cons_of_mem _ hd))
    have hq : ¬ (c = ' ' ∧ mode = encodeQueryComponent) := by
      rintro ⟨rfl, rfl⟩
      revert hc; decide
    simp [escapeLoop, hq, hc, ht]

/-- In path mode `escape` is its writing loop: the early return gives the same bytes. -/
theorem escape_path_eq (s : GoString) : escape s encodePath = escapeLoop encodePath s := by
  unfold escape
  have h1 : s.countP (fun c => shouldEscape c encodePath ∧ c = ' ' ∧
      encodePath = encodeQueryComponent) = 0 := by
    rw [List.countP_eq_zero]
    intro c _
    simp
  simp only [h1, true_and]
  split
  · rename_i h2
    rw [List.countP_eq_zero] at h2
    symm
    apply escapeLoop_id
    intro c hc
    have := h2 c hc
    simpa using this
  · rename_i h2
    simp [h2]

theorem upperhex_ishex (n : Nat) : ishex (upperhex n) = true := by
  unfold upperhex
  by_cases h : n < 16
  · interval_cases n <;> decide
  · have : "0123456789ABCDEF".toList.getD n '0' = '0' := by
      apply List.getD_eq_default
      simp at h ⊢
      exact h
    rw [this]; decide

theorem upperhex_alnum (n : Nat) : isAlnum (upperhex n) = true := by
  unfold upperhex
  by_cases h : n < 16
  · interval_cases n <;> decide
  · have : "0123456789ABCDEF".toList.getD n '0' = '0' := by
      apply List.getD_eq_default
      simp at h ⊢
      exact h
    rw [this]; decide

theorem shouldEscape_alnum (c : Char) (mode : encoding) (h : isAlnum c = true) :
    shouldEscape c mode = false := by
  simp only [isAlnum, decide_eq_true_eq] at h
  simp [shouldEscape, h]

/-- The output of the escaping loop passes the check of `unescape`. -/
theorem unescapeCheck_escapeLoop (s : GoString) (n : Nat) :
    ∃ m, unescapeCheck encodePath (escapeLoop encodePath s) n false = .ok (m, false) := by
  induction s generalizing n with
  | nil => exact ⟨n, rfl⟩
  | cons c t ih =>
    simp only [escapeLoop, and_false, if_false, reduceCtorEq]
    split
    · obtain ⟨m, hm⟩ := ih (n + 1)
      refine ⟨m, ?_⟩
      rw [unescapeCheck.eq_def]
      simp [upperhex_ishex, hm]
    · rename_i hc
      obtain ⟨m, hm⟩ := ih n
      refine ⟨m, ?_⟩
      have hpc : c ≠ '%' := by
        rintro rfl
        revert hc; decide
      rw [unescapeCheck.eq_def]
      by_cases hp : c = '+'
      · simp [hpc, hp, hm]
      · simp [hpc, hp, hm]

theorem validEncoded_append (a b : GoString) (mode : encoding) :
    validEncoded (a ++ b) mode = (validEncoded a mode && validEncoded b mode) := by
  simp [validEncoded, List.all_append]

theorem validEncoded_escapeLoop (s : GoString) :
    validEncoded (escapeLoop encodePath s) encodePath = true := by
  induction s with
  | nil => rfl
  | cons c t ih =>
    simp only [escapeLoop, and_false, if_false, reduceCtorEq]
    have hx : ∀ n, (if upperhex n ∈ ['!', '$', '&', apostrophe, '(', ')', '*', '+', ',', ';', '=', ':', '@'] then true
        else if upperhex n ∈ ['[', ']'] then true
        else if upperhex n = '%' then true
        else !shouldEscape (upperhex n) encodePath) = true := by
      intro n
      rw [shouldEscape_alnum _ _ (upperhex_alnum n)]
      simp
    split
    · unfold validEncoded at ih ⊢
      simp only [List.all_cons, Bool.and_eq_true, hx, ih, and_true]
      decide
    · rename_i hc
      unfold validEncoded at ih ⊢
      simp only [List.all_cons, Bool.and_eq_true, ih, and_true]
      simp at hc
      simp [hc]

/-- The check of `unescape` runs through a concatenation part by part. -/
theorem unescapeCheck_append (mode : encoding) (k : Nat) :
    ∀ (a b : GoString) (n : Nat) (hp : Bool) (n1 : Nat) (hp1 : Bool), a.length ≤ k →
      unescapeCheck mode a n hp = .ok (n1, hp1) →
      unescapeCheck mode (a ++ b) n hp = unescapeCheck mode b n1 hp1 ∧
      unescapeDecode mode (a ++ b) = unescapeDecode mode a ++ unescapeDecode mode b := by
  induction k with
  | zero =>
    intro a b n hp n1 hp1 hk h
    have : a = [] := List.length_eq_zero.1 (Nat.le_zero.1 hk)
    subst this
    simp only [unescapeCheck, Except.ok.injEq, Prod.mk.injEq] at h
    obtain ⟨rfl, rfl⟩ := h
    simp [unescapeDecode]
  | succ k ih =>
    intro a b n hp n1 hp1 hk h
    cases a with
    | nil =>
      simp only [unescapeCheck, Except.ok.injEq, Prod.mk.injEq] at h
      obtain ⟨rfl, rfl⟩ := h
      simp [unescapeDecode]
    | cons c t =>
      simp only [List.length_cons] at hk
      rw [unescapeCheck.eq_def] at h
      simp only at h
      by_cases hc : c = '%'
      · subst hc
        simp only [if_true] at h
        cases t with
        | nil => simp at h
        | cons x t =>
          cases t with
          | nil => simp at h
          | cons y t =>
            simp only at h
            split_ifs at h with h1 h2 h3
            have := ih t b (n + 1) hp n1 hp1 (by simp at hk; omega) h
            constructor
            · rw [List.cons_append, List.cons_append, List.cons_append, unescapeCheck.eq_def]
              simp only [if_true, h1, h2, h3, if_false]
              exact this.1
            · rw [List.cons_append, List.cons_append, List.cons_append, unescapeDecode.eq_def]
              simp only [if_true]
              rw [this.2]
              conv_rhs => rw [unescapeDecode.eq_def]
              simp
      · simp only [hc, if_false] at h
        by_cases hpl : c = '+'
        · subst hpl
          simp only [if_true] at h
          have := ih t b n _ n1 hp1 (by omega) h
          constructor
          · rw [List.cons_append, unescapeCheck.eq_def]
            simp only [hc, if_false, if_true]
            exact this.1
          · rw [List.cons_append, unescapeDecode.eq_def]
            simp only [hc, if_false, if_true]
            rw [this.2]
            conv_rhs => rw [unescapeDecode.eq_def]
            simp
        · simp only [hpl, if_false] at h
          split_ifs at h with h1
          have := ih t b n hp n1 hp1 (by omega) h
          constructor
          · rw [List.cons_append, unescapeCheck.eq_def]
            simp only [hc, hpl, h1, if_false]
            exact this.1
          · rw [List.cons_append, unescapeDecode.eq_def]
            simp only [hc, hpl, if_false]
            rw [this.2]
            conv_rhs => rw [unescapeDecode.eq_def]
            simp [hc, hpl]

theorem unescapeDecode_path_id (s : GoString) (h : '%' ∉ s) :
    unescapeDecode encodePath s = s := by
  induction s with
  | nil => rfl
  | cons c t ih =>
    simp only [List.mem_cons, not_or] at h
    have hc : ¬ (c = '%') := fun e => h.1 e.symm
    rw [unescapeDecode.eq_def]
    simp only [hc, if_false, reduceCtorEq, ih h.2]
    split
    · rename_i hp; rw [hp]
    · rfl

/-- In path mode a passed check keeps `hasPlus` unset, and it leaves the count
of `%` as it was only when the text has none. -/
theorem unescapeCheck_path_facts (k : Nat) :
    ∀ (s : GoString) (n n1 : Nat) (hp1 : Bool), s.length ≤ k →
      unescapeCheck encodePath s n false = .ok (n1, hp1) →
      hp1 = false ∧ n ≤ n1 ∧ (n1 = n → '%' ∉ s) := by
  induction k with
  | zero =>
    intro s n n1 hp1 hk h
    have : s = [] := List.length_eq_zero.1 (Nat.le_zero.1 hk)
    subst this
    simp only [unescapeCheck, Except.ok.injEq, Prod.mk.injEq] at h
    obtain ⟨rfl, rfl⟩ := h
    simp
  | succ k ih =>
    intro s n n1 hp1 hk h
    cases s with
    | nil =>
      simp only [unescapeCheck, Except.ok.injEq, Prod.mk.injEq] at h
      obtain ⟨rfl, rfl⟩ := h
      simp
    | cons c t =>
      simp only [List.length_cons] at hk
      rw [unescapeCheck.eq_def] at h
      simp only at h
      by_cases hc : c = '%'
      · subst hc
        simp only [if_true] at h
        cases t with
        | nil => simp at h
        | cons x t =>
          cases t with
          | nil => simp at h
          | cons y t =>
            simp only at h
            split_ifs at h with h1 h2 h3
            have := ih t (n + 1) n1 hp1 (by simp at hk; omega) h
            exact ⟨this.1, by omega, fun e => by omega⟩
      · simp only [hc, if_false] at h
        by_cases hpl : c = '+'
        · subst hpl
          simp only [if_true, reduceCtorEq, decide_False] at h
          have := ih t n n1 hp1 (by omega) h
          refine ⟨this.1, this.2.1, fun e => ?_⟩
          simp only [List.mem_cons, not_or]
          exact ⟨by decide, this.2.2 e⟩
        · simp only [hpl, if_false, reduceCtorEq, or_self, false_and] at h
          have := ih t n n1 hp1 (by omega) h
          refine ⟨this.1, this.2.1, fun e => ?_⟩
          simp only [List.mem_cons, not_or]
          exact ⟨fun e2 => hc e2.symm, this.2.2 e⟩

/-- In path mode `unescape` is its decoding loop behind its check: the early
return gives the same bytes. -/
theorem unescape_path_eq (s : GoString) (n1 : Nat) (hp1 : Bool)
    (h : unescapeCheck encodePath s 0 false = .ok (n1, hp1)) :
    unescape s encodePath = .ok (unescapeDecode encodePath s) := by
  have f := unescapeCheck_path_facts s.length s 0 n1 hp1 (Nat.le_refl _) h
  unfold unescape
  rw [h]
  simp only
  split
  · rename_i hc
    rw [unescapeDecode_path_id s (f.2.2 hc.1)]
  · rfl

theorem takeWhile_append_slash (x rest : GoString) :
    (x ++ '/' :: rest).takeWhile (· ≠ '/') = x.takeWhile (· ≠ '/') := by
  induction x with
  | nil => simp
  | cons c t ih =>
    by_cases hc : c = '/'
    · simp [hc]
    · have hp : decide (c ≠ '/') = true := by simp [hc]
      simp only [List.cons_append, List.takeWhile_cons, hp, if_true, ih]

theorem cleanLoop_split_aux (rooted : Bool) (y : GoString) (G : GoString → Nat → GoString)
    (hG : ∀ o d, cleanLoop rooted ('/' :: y).length ('/' :: y) o d = G o d) (n : Nat) :
    ∀ (x out : GoString) (dd : Nat), x.length ≤ n →
      ∃ dd', cleanLoop rooted (x ++ '/' :: y).length (x ++ '/' :: y) out dd =
        G (cleanLoop rooted x.length x out dd) dd' := by
  induction n with
  | zero =>
    intro x out dd hx
    have : x = [] := List.length_eq_zero.1 (Nat.le_zero.1 hx)
    subst this
    exact ⟨dd, by simp only [List.nil_append, List.length_nil, cleanLoop_nil]; exact hG _ _⟩
  | succ n ih =>
    intro x out dd hx
    cases x with
    | nil => exact ⟨dd, by simp only [List.nil_append, List.length_nil, cleanLoop_nil]; exact hG _ _⟩
    | cons c t =>
      simp only [List.length_cons] at hx
      have key : ∀ (t2 o : GoString) (d : Nat), t2.length ≤ t.length →
          ∃ dd', cleanLoop rooted (t ++ '/' :: y).length (t2 ++ '/' :: y) o d =
            G (cleanLoop rooted t.length t2 o d) dd' := by
        intro t2 o d ht2
        obtain ⟨dd', h⟩ := ih t2 o d (by omega)
        refine ⟨dd', ?_⟩
        rw [cleanLoop_fuel rooted _ (t2 ++ '/' :: y) (Nat.le_refl _) _ (t2 ++ '/' :: y).length
          (by simp; omega) (Nat.le_refl _), h]
        rw [cleanLoop_fuel rooted _ t2 (Nat.le_refl _) t2.length t.length (Nat.le_refl _) ht2]
      have e1 : ((c :: t) ++ '/' :: y).length = (t ++ '/' :: y).length + 1 := by simp
      have e2 : (c :: t).length = t.length + 1 := by simp
      rw [e1, e2, List.cons_append]
      simp only [cleanLoop]
      by_cases h1 : c = '/'
      · simp only [h1, if_true]
        exact key t _ _ (Nat.le_refl _)
      · have hp : decide (c ≠ '/') = true := by simp [h1]
        have hdw : ((c :: (t ++ '/' :: y)).dropWhile (· ≠ '/')) =
            (c :: t).dropWhile (· ≠ '/') ++ '/' :: y := by
          rw [← List.cons_append]
          exact dropWhile_append_slash (c :: t) _
        have htw : ((c :: (t ++ '/' :: y)).takeWhile (· ≠ '/')) =
            (c :: t).takeWhile (· ≠ '/') := by
          rw [← List.cons_append]
          exact takeWhile_append_slash (c :: t) _
        have hdl : ((c :: t).dropWhile (· ≠ '/')).length ≤ t.length := by
          rw [List.dropWhile_cons]
          simp only [hp, if_true]
          exact dropWhile_length_le _ t
        have c2 : ((t ++ '/' :: y) = [] ∨ (t ++ '/' :: y).head? = some '/') ↔
            (t = [] ∨ t.head? = some '/') := by
          cases t <;> simp
        have c3 : ((t ++ '/' :: y).head? = some '.' ∧
            ((t ++ '/' :: y).tail = [] ∨ (t ++ '/' :: y).tail.head? = some '/')) ↔
            (t.head? = some '.' ∧ (t.tail = [] ∨ t.tail.head? = some '/')) := by
          cases t with
          | nil => simp
          | cons a t2 => cases t2 <;> simp
        have htail : t.head? = some '.' → (t ++ '/' :: y).tail = t.tail ++ '/' :: y := by
          intro h
          cases t with
          | nil => simp at h
          | cons a t2 => rfl
        simp only [h1, if_false, hdw, htw, c2, c3]
        by_cases h2 : c = '.' ∧ (t = [] ∨ t.head? = some '/')
        · rw [if_pos h2, if_pos h2]
          exact key t _ _ (Nat.le_refl _)
        · rw [if_neg h2, if_neg h2]
          by_cases h3 : c = '.' ∧ t.head? = some '.' ∧ (t.tail = [] ∨ t.tail.head? = some '/')
          · rw [if_pos h3, if_pos h3, htail h3.2.1]
            by_cases h4 : out.length > dd
            · rw [if_pos h4, if_pos h4]
              exact key _ _ _ (by simp)
            · rw [if_neg h4, if_neg h4]
              by_cases h5 : (!rooted) = true
              · rw [if_pos h5, if_pos h5]
                exact key _ _ _ (by simp)
              · rw [if_neg h5, if_neg h5]
                exact key _ _ _ (by simp)
          · rw [if_neg h3, if_neg h3]
            exact key _ _ _ hdl

/-- The loop of `path.Clean` on a text followed by a slash and more text: it
first does what it does on the text alone, then goes on from the slash. -/
theorem cleanLoop_split (rooted : Bool) (x y out : GoString) (dd : Nat) :
    ∃ dd', cleanLoop rooted (x ++ '/' :: y).length (x ++ '/' :: y) out dd =
      cleanLoop rooted ('/' :: y).length ('/' :: y) (cleanLoop rooted x.length x out dd) dd' :=
  cleanLoop_split_aux rooted y _ (fun _ _ => rfl) x.length x out dd (Nat.le_refl _)

/-- The loop, started on a route of plain elements, appends the route to the buffer. -/
theorem cleanLoop_route_eq (route : List GoString) (h : route.all plainElement = true)
    (hne : route ≠ []) (f : Nat) (out : GoString) (dd : Nat)
    (hf : (pathOf route).length ≤ f) :
    cleanLoop true f (pathOf route) out dd =
      (if out.length ≠ 1 then out ++ ['/'] else out) ++ (pathOf route).drop 1 := by
  cases route with
  | nil => exact absurd rfl hne
  | cons s route =>
    simp only [List.all_cons, Bool.and_eq_true] at h
    obtain ⟨g, rfl⟩ : ∃ g, f = g + 1 := ⟨f - 1, by simp [pathOf] at hf; omega⟩
    have e1 : pathOf (s :: route) = '/' :: (s ++ pathOf route) := by simp [pathOf]
    rw [e1] at hf ⊢
    rw [cleanLoop_slash, cleanLoop_segment g s _ out dd h.1 (pathOf_head route)
      (by simpa using hf)]
    obtain ⟨c, t, rfl, _⟩ := plainElement_facts s h.1
    have hlen : 2 ≤ ((if out.length ≠ 1 then out ++ ['/'] else out) ++ c :: t).length := by
      split <;> simp <;> omega
    have := cleanLoop_segments route h.2 (pathOf route).length [] _ dd (Or.inl rfl) hlen
      (by simp)
    simp only [List.append_nil] at this
    rw [this, cleanLoop_nil]
    simp

/-- Cleaning a clean rooted path, other than the root, followed by a route of
plain elements gives the path followed by the route. -/
theorem Clean_clean_join (ep : GoString) (route : List GoString)
    (h : route.all plainElement = true) (hne : route ≠ [])
    (hroot : ep.head? = some '/') (hclean : Clean ep = ep) (hnot : ep ≠ ['/']) :
    Clean (ep ++ '/' :: pathOf route) = ep ++ pathOf route := by
  obtain ⟨x, rfl⟩ : ∃ x, ep = '/' :: x := by
    cases ep with
    | nil => simp at hroot
    | cons a x =>
      simp only [List.head?_cons, Option.some.injEq] at hroot
      exact ⟨x, by rw [hroot]⟩
  have hx : x ≠ [] := fun e => hnot (by rw [e])
  -- what the loop does on the path alone
  have hloop : cleanLoop true x.length x ['/'] 1 = '/' :: x := by
    unfold Clean at hclean
    simp only [reduceCtorEq, if_false, List.head?_cons, decide_True, if_true, List.drop_succ_cons,
      List.drop_zero] at hclean
    rw [cleanLoop_fuel true x.length x (Nat.le_refl _) _ x.length (by simp) (Nat.le_refl _)]
      at hclean
    split at hclean
    · simp at hclean
    · exact hclean
  obtain ⟨dd', hsplit⟩ := cleanLoop_split true x (pathOf route) ['/'] 1
  obtain ⟨rc, rt, hrt⟩ : ∃ c t, pathOf route = '/' :: c :: t := by
    cases route with
    | nil => exact absurd rfl hne
    | cons s segs =>
      simp only [List.all_cons, Bool.and_eq_true] at h
      obtain ⟨c, t, rfl, _⟩ := plainElement_facts s h.1
      exact ⟨c, t ++ pathOf segs, by simp [pathOf]⟩
  have hlen : ('/' :: x).length ≠ 1 := by
    cases x with
    | nil => exact absurd rfl hx
    | cons a t => simp
  have key : cleanLoop true ('/' :: x ++ '/' :: pathOf route).length (x ++ '/' :: pathOf route)
      ['/'] 1 = '/' :: x ++ pathOf route := by
    rw [cleanLoop_fuel true _ (x ++ '/' :: pathOf route) (Nat.le_refl _) _
      (x ++ '/' :: pathOf route).length (by simp) (Nat.le_refl _), hsplit, hloop]
    obtain ⟨g, hg⟩ : ∃ g, ('/' :: pathOf route).length = g + 1 := ⟨_, rfl⟩
    rw [hg, cleanLoop_slash, cleanLoop_route_eq route h hne g _ _ (by simp at hg; omega)]
    simp only [hlen, ne_eq, not_false_eq_true, if_true, hrt]
    simp
  have hne2 : '/' :: x ++ '/' :: pathOf route ≠ [] := by simp
  have hhead : ('/' :: x ++ '/' :: pathOf route).head? = some '/' := rfl
  have hd : ('/' :: x ++ '/' :: pathOf route).drop 1 = x ++ '/' :: pathOf route := rfl
  have hl : ('/' :: x ++ pathOf route).length ≠ 0 := by simp
  unfold Clean
  simp only [hne2, if_false, hhead, decide_True, if_true, hd, key, hl]

theorem unescape_ok_check (s q : GoString) (mode : encoding) (h : unescape s mode = .ok q) :
    ∃ n1 hp1, unescapeCheck mode s 0 false = .ok (n1, hp1) := by
  unfold unescape at h
  cases hc : unescapeCheck mode s 0 false with
  | error e => simp [hc] at h
  | ok r => exact ⟨r.1, r.2, rfl⟩

/-- The escaped path of any URL passes the check of `unescape` and is validly encoded. -/
theorem EscapedPath_wellformed (u : URL) :
    (∃ n1 hp1, unescapeCheck encodePath u.EscapedPath 0 false = .ok (n1, hp1)) ∧
    validEncoded u.EscapedPath encodePath = true := by
  unfold URL.EscapedPath
  split
  · rename_i hc
    refine ⟨?_, hc.2.1⟩
    have h3 := hc.2.2
    unfold unescapesTo at h3
    cases hu : unescape u.RawPath encodePath with
    | error e => simp [hu] at h3
    | ok q => exact unescape_ok_check _ _ _ hu
  · split
    · exact ⟨⟨0, false, rfl⟩, by decide⟩
    · rw [escape_path_eq]
      obtain ⟨m, hm⟩ := unescapeCheck_escapeLoop u.Path 0
      exact ⟨⟨m, false, hm⟩, validEncoded_escapeLoop _⟩

theorem validEncoded_urlBytes (r : GoString) (h : ∀ c ∈ r, urlByte c = true) :
    validEncoded r encodePath = true := by
  unfold validEncoded
  rw [List.all_eq_true]
  intro c hc
  have := urlByte_shouldEscape c (h c hc)
  simp [this]

/-- Setting a path made of a well-formed escaped text and plain bytes behind it
succeeds, and the escaped path of the result is that very path. -/
theorem setPath_append (u : URL) (e r : GoString) (n1 : Nat) (hp1 : Bool)
    (hchk : unescapeCheck encodePath e 0 false = .ok (n1, hp1))
    (hval : validEncoded e encodePath = true) (hr : r ≠ [])
    (hb : ∀ c ∈ r, urlByte c = true) :
    ∃ P RP, u.setPath (e ++ r) = .ok { u with Path := P, RawPath := RP } ∧
      URL.EscapedPath { u with Path := P, RawPath := RP } = e ++ r := by
  have f := unescapeCheck_path_facts e.length e 0 n1 hp1 (Nat.le_refl _) hchk
  obtain ⟨rfl, -, -⟩ := f
  have hpct : '%' ∉ r := fun hm => (urlByte_facts _ (hb _ hm)).2.2.1 rfl
  have hstar : '*' ∉ r := fun hm => (urlByte_facts _ (hb _ hm)).2.2.2.1 rfl
  have happ := unescapeCheck_append encodePath e.length e r 0 false n1 false (Nat.le_refl _) hchk
  have hchk2 : unescapeCheck encodePath (e ++ r) 0 false = .ok (n1, false) := by
    rw [happ.1, unescapeCheck_path r hpct]
  have hun : unescape (e ++ r) encodePath = .ok (unescapeDecode encodePath e ++ r) := by
    rw [unescape_path_eq _ _ _ hchk2, happ.2, unescapeDecode_path_id r hpct]
  have hPstar : unescapeDecode encodePath e ++ r ≠ ['*'] := by
    intro e1
    cases hd : unescapeDecode encodePath e with
    | nil =>
      rw [hd, List.nil_append] at e1
      exact hstar (by rw [e1]; simp)
    | cons a t =>
      rw [hd] at e1
      simp only [List.cons_append, List.cons.injEq, List.append_eq_nil] at e1
      exact hr e1.2.2
  have hne : e ++ r ≠ [] := by simp [hr]
  unfold URL.setPath
  rw [hun]
  simp only
  split
  · rename_i heq
    refine ⟨_, _, rfl, ?_⟩
    unfold URL.EscapedPath
    simp only [ne_eq, not_true_eq_false, false_and, if_false, hPstar]
    exact heq.symm
  · refine ⟨_, _, rfl, ?_⟩
    unfold URL.EscapedPath
    have hv : validEncoded (e ++ r) encodePath = true := by
      rw [validEncoded_append, hval, validEncoded_urlBytes r hb]; rfl
    have hu2 : unescapesTo (e ++ r) encodePath (unescapeDecode encodePath e ++ r) = true := by
      unfold unescapesTo
      rw [hun]
      simp
    simp only [ne_eq, hne, not_false_eq_true, hv, hu2, and_self, if_true]

/-- How a URL with a host, without query and fragment, prints. -/
theorem String_host (v : URL) (hh : v.Host ≠ []) (ho : v.Opaque = []) (hq : v.RawQuery = [])
    (hf : v.ForceQuery = false) (hfr : v.Fragment = []) :
    v.String = v.schemePart ++
      (['/', '/'] ++ (match v.User with
        | some ui => ui.String ++ ['@']
        | none => []) ++ escape v.Host encodeHost) ++
      ((if v.EscapedPath ≠ [] ∧ v.EscapedPath.head? ≠ some '/' then ['/'] else []) ++
        v.EscapedPath) := by
  unfold URL.String URL.authorityPart URL.pathPart
  cases hU : v.User <;> simp [hh, ho, hq, hf, hfr]

theorem setPath_Opaque_Host (u u' : URL) (p : GoString) (h : u.setPath p = .ok u') :
    u'.Opaque = u.Opaque ∧ u'.Host = u.Host := by
  unfold URL.setPath at h
  split at h
  · cases h
  · split at h <;> (cases h; exact ⟨rfl, rfl⟩)

theorem parse_Opaque (raw : GoString) (v : Bool) (u : URL) (h : parse raw v = .ok u)
    (hh : u.Host ≠ []) : u.Opaque = [] := by
  unfold parse at h
  split_ifs at h with h1 h2 h3
  · cases h; rfl
  · split at h
    · cases h
    · simp only at h
      split_ifs at h with h4 h5 h6 h7 h8
      · cases h; exact absurd rfl hh
      · split at h
        · cases h
        · have := setPath_Opaque_Host _ _ _ h
          exact this.1
      · exact (setPath_Opaque_Host _ _ _ h).1
      · exact (setPath_Opaque_Host _ _ _ h).1

theorem Parse_Opaque (raw : GoString) (u : URL) (h : Parse raw = .ok u) (hh : u.Host ≠ []) :
    u.Opaque = [] := by
  unfold Parse at h
  simp only at h
  split at h
  · cases h
  · rename_i url hp
    split at h
    · cases h; exact parse_Opaque _ _ _ hp hh
    · split at h
      · cases h
      · rename_i url2 hs
        cases h
        unfold URL.setFragment at hs
        split at hs
        · cases hs
        · split at hs <;> (cases hs; exact parse_Opaque _ _ url hp hh)

/-- Joining a route of plain segments to a parsed URL with a host, without
query and fragment, whose escaped path is empty or rooted and clean, appends
the route to what the URL prints as. -/
theorem JoinPath_String_append (u : URL) (route : List GoString)
    (hroute : route.all segmentOk = true) (hrne : route ≠ [])
    (hh : u.Host ≠ []) (ho : u.Opaque = []) (hq : u.RawQuery = []) (hf : u.ForceQuery = false)
    (hfr : u.Fragment = []) (hts : Strings.HasSuffix u.String ['/'] = false)
    (hpath : u.EscapedPath = [] ∨
      (u.EscapedPath.head? = some '/' ∧ Clean u.EscapedPath = u.EscapedPath)) :
    (u.JoinPath [pathOf route]).String = u.String ++ pathOf route := by
  have hrp := segments_plain route hroute
  have hrb := pathOf_bytes _ hroute
  have hsuf := pathOf_last route hrp hrne
  obtain ⟨rc, rt, hrt, hrc⟩ : ∃ c t, pathOf route = '/' :: c :: t ∧ c ≠ '/' := by
    cases route with
    | nil => exact absurd rfl hrne
    | cons s segs =>
      simp only [List.all_cons, Bool.and_eq_true] at hroute
      obtain ⟨⟨c, t, rfl, _, hc⟩, _⟩ := segment_bytes s hroute.1
      exact ⟨c, t ++ pathOf segs, by simp [pathOf], hc⟩
  have hSu := String_host u hh ho hq hf hfr
  unfold URL.JoinPath
  simp only [List.getLastD_cons, List.getLastD_nil, hsuf, Bool.false_eq_true, false_and, if_false]
  rcases hpath with he | ⟨hroot, hclean⟩
  · -- no path
    have hJ : Path.Join [['/'] ++ u.EscapedPath, pathOf route] = pathOf route := by
      rw [he]
      have : Path.joinBuf [] [['/'] ++ [], pathOf route] = '/' :: '/' :: pathOf route := by
        simp [Path.joinBuf, hrt]
      unfold Path.Join
      rw [this, Clean_join_root route hrp hrne]
      simp [hrt]
    have hrel : Strings.HasPrefix u.EscapedPath ['/'] = false := by
      rw [he]; rfl
    simp only [hrel, Bool.not_false, if_true, hJ]
    have hb : ∀ c ∈ (pathOf route).drop 1, urlByte c = true :=
      fun c hc => hrb c (List.mem_of_mem_drop hc)
    have hne : (pathOf route).drop 1 ≠ [] := by rw [hrt]; simp
    obtain ⟨P, RP, hset, hesc⟩ := setPath_append u [] ((pathOf route).drop 1) 0 false rfl rfl hne hb
    simp only [List.nil_append] at hset hesc
    have hS2 := String_host { u with Path := P, RawPath := RP } hh ho hq hf hfr
    rw [hesc] at hS2
    rw [hset]
    simp only
    rw [hS2, hSu, he]
    have hsl : ¬ (rc = '/') := hrc
    simp [URL.schemePart, hrt, hsl]
  · -- a rooted clean path
    have hnot : u.EscapedPath ≠ ['/'] := by
      intro e
      rw [hSu, e] at hts
      simp [Strings.HasSuffix, List.isSuffixOf, List.isPrefixOf] at hts
    obtain ⟨pt, hpt⟩ : ∃ t, u.EscapedPath = '/' :: t := by
      cases he : u.EscapedPath with
      | nil => rw [he] at hroot; simp at hroot
      | cons a t =>
        rw [he] at hroot
        simp only [List.head?_cons, Option.some.injEq] at hroot
        exact ⟨t, by rw [hroot]⟩
    have hJ : Path.Join [u.EscapedPath, pathOf route] = u.EscapedPath ++ pathOf route := by
      have : Path.joinBuf [] [u.EscapedPath, pathOf route] =
          u.EscapedPath ++ '/' :: pathOf route := by
        simp [Path.joinBuf, hpt, hrt]
      have hsum : ¬ (([u.EscapedPath, pathOf route].map List.length).sum = 0) := by
        simp [hpt]
      unfold Path.Join
      rw [if_neg hsum, this, Clean_clean_join _ route hrp hrne hroot hclean hnot]
    have hrel : Strings.HasPrefix u.EscapedPath ['/'] = true := by
      rw [hpt]; simp [Strings.HasPrefix, List.isPrefixOf]
    simp only [hrel, Bool.not_true, Bool.false_eq_true, if_false, hJ]
    obtain ⟨⟨n1, hp1, hchk⟩, hval⟩ := EscapedPath_wellformed u
    have hne : pathOf route ≠ [] := by rw [hrt]; simp
    obtain ⟨P, RP, hset, hesc⟩ := setPath_append u u.EscapedPath (pathOf route) n1 hp1 hchk hval
      hne hrb
    have hS2 := String_host { u with Path := P, RawPath := RP } hh ho hq hf hfr
    rw [hesc] at hS2
    rw [hset]
    simp only
    rw [hS2, hSu]
    simp [URL.schemePart, hpt]

namespace Net

theorem JoinPath_normal (root : GoString) (route : List GoString)
    (hroute : route.all segmentOk = true) (hrne : route ≠ [])
    (ha : absoluteRoot root = true) (hn : normalRoot root = true) :
    (Url.JoinPath root [pathOf route]).1 = root ++ pathOf route := by
  unfold absoluteRoot at ha
  unfold normalRoot at hn
  unfold Url.JoinPath
  cases hP : Url.Parse root with
  | error e => simp [hP] at ha
  | ok u =>
    simp only [hP, Bool.decide_and, Bool.and_eq_true, decide_eq_true_eq, Bool.not_eq_true',
      Bool.decide_or, Bool.or_eq_true, decide_not, Bool.not_eq_true', decide_eq_false_iff_not] at ha hn
    obtain ⟨hS, hpath⟩ := hn
    have ho := Parse_Opaque root u hP ha.2.1
    simp only
    rw [JoinPath_String_append u route hroute hrne ha.2.1 ho ha.2.2.1 ha.2.2.2.1 ha.2.2.2.2.1
      (by rw [hS]; exact ha.2.2.2.2.2.1) hpath, hS]

end Net

/-- A path of plain segments is clean. -/
theorem Clean_pathOf (segs : List GoString) (h : segs.all plainElement = true) (hne : segs ≠ []) :
    Clean (pathOf segs) = pathOf segs := by
  obtain ⟨t, ht⟩ : ∃ t, pathOf segs = '/' :: t := by
    cases segs with
    | nil => exact absurd rfl hne
    | cons s segs => exact ⟨_, rfl⟩
  have key : cleanLoop true (pathOf segs).length ((pathOf segs).drop 1) ['/'] 1 = pathOf segs := by
    have e : (pathOf segs).drop 1 = t := by rw [ht]; rfl
    rw [e, ← cleanLoop_slash true _ t ['/'] 1, ← ht]
    have := cleanLoop_first segs h hne ((pathOf segs).length + 1) [] (Or.inl rfl) (by simp)
    simp only [List.append_nil] at this
    rw [this, cleanLoop_nil]
  have hne2 : pathOf segs ≠ [] := by rw [ht]; simp
  have hhead : (pathOf segs).head? = some '/' := by rw [ht]; rfl
  have hl : (pathOf segs).length ≠ 0 := by rw [ht]; simp
  unfold Clean
  simp only [hne2, if_false, hhead, decide_True, if_true, key, hl]

namespace Net

/-- Every plain root is an absolute URL without query, fragment and trailing
slash, in normal spelling. -/
theorem plain_root_normal (r : PlainRoot) (h : r.ok = true) :
    absoluteRoot r.text = true ∧ normalRoot r.text = true := by
  have hP := Parse_plain r h
  have hbytes := text_bytes r h
  have hok := h
  simp only [PlainRoot.ok, Bool.decide_and, Bool.and_eq_true, decide_eq_true_eq] at h
  obtain ⟨hs, hh, hp, hsegs⟩ := h
  obtain ⟨hsne, -⟩ := scheme_bytes _ hs
  obtain ⟨hhne, -⟩ := host_bytes _ hh
  have hhp := hostport_bytes _ _ hh hp
  have hpb := pathOf_bytes _ hsegs
  have hsp := segments_plain r.segments hsegs
  have hhpne : r.host ++ r.port ≠ [] := by simp [hhne]
  have hE := EscapedPath_plain
    { Scheme := r.scheme, Host := r.host ++ r.port, Path := pathOf r.segments } rfl hpb
  have hStr := String_plain r.scheme (r.host ++ r.port) (pathOf r.segments) hsne hhpne
    (fun c hc => (hhp c hc).2.2.2.2.2) hpb
  have hslash : (if pathOf r.segments ≠ [] ∧ (pathOf r.segments).head? ≠ some '/' then ['/']
      else ([] : GoString)) = [] := by
    rcases pathOf_head r.segments with e | ⟨t, e⟩ <;> simp [e]
  have hStr2 : URL.String
      { Scheme := r.scheme, Host := r.host ++ r.port, Path := pathOf r.segments } = r.text := by
    rw [hStr, hslash]
    simp [PlainRoot.text]
  have hq : '?' ∉ r.text := fun hm => (urlByte_facts _ (hbytes _ hm)).2.1 rfl
  have hf : '#' ∉ r.text := fun hm => (urlByte_facts _ (hbytes _ hm)).1 rfl
  have hts : Strings.HasSuffix r.text ['/'] = false := by
    by_cases hseg : r.segments = []
    · have e : r.text = r.scheme ++ [':', '/', '/'] ++ r.host ++ r.port := by
        simp [PlainRoot.text, hseg, pathOf]
      have hne2 : r.host ++ r.port ≠ [] := hhpne
      have hl := (hhp _ (List.getLast_mem hne2)).2.1
      have e2 : r.text = (r.scheme ++ [':', '/', '/'] ++ (r.host ++ r.port).dropLast) ++
          [(r.host ++ r.port).getLast hne2] := by
        rw [e, List.append_assoc _ _ [_], List.dropLast_append_getLast]
        simp
      have hl2 : ¬ ('/' = (r.host ++ r.port).getLast hne2) := fun e3 => hl e3.symm
      rw [e2]
      simp [Strings.HasSuffix, List.isSuffixOf, List.isPrefixOf, hl2]
    · have h1 := pathOf_last r.segments hsp hseg
      obtain ⟨c, t, hct⟩ : ∃ c t, (pathOf r.segments).reverse = c :: t := by
        cases hrev : (pathOf r.segments).reverse with
        | nil =>
          have := List.reverse_eq_nil_iff.1 hrev
          rcases pathOf_head r.segments with e | ⟨t, e⟩
          · cases hsg : r.segments with
            | nil => exact absurd hsg hseg
            | cons a b => rw [hsg] at e; simp [pathOf] at e
          · rw [e] at this; simp at this
        | cons c t => exact ⟨c, t, rfl⟩
      simp only [Strings.HasSuffix, List.isSuffixOf, hct, List.reverse_cons, List.reverse_nil,
        List.nil_append, List.isPrefixOf] at h1
      simp only [Strings.HasSuffix, List.isSuffixOf, PlainRoot.text, List.reverse_append, hct,
        List.reverse_cons, List.reverse_nil, List.nil_append, List.cons_append, List.isPrefixOf]
      exact h1
  constructor
  · unfold absoluteRoot
    rw [hP]
    simp [hsne, hhne, hts, hq, hf]
  · unfold normalRoot
    rw [hP]
    simp only [hStr2, hE, true_and, decide_eq_true_eq]
    rcases pathOf_head r.segments with e | ⟨t, e⟩
    · exact Or.inl e
    · right
      have hseg : r.segments ≠ [] := by
        intro e2; rw [e2] at e; simp [pathOf] at e
      exact ⟨by rw [e]; rfl, Clean_pathOf _ hsp hseg⟩

end Net

/-! ### The builders -/

theorem JoinPath_of_parse_error (root : GoString) (elem : List GoString)
    (h : parses root = false) : (Url.JoinPath root elem).1 = [] := by
  unfold parses at h
  unfold Url.JoinPath
  cases hp : Parse root with
  | error e => rfl
  | ok u => simp [hp] at h

theorem JoinPath_of_parse_ok (root : GoString) (route : List GoString)
    (h : route.all plainElement = true) (hlen : 3 ≤ (pathOf route).length)
    (hpct : '%' ∉ pathOf route) (hp : parses root = true) :
    (Url.JoinPath root [pathOf route]).1 ≠ [] := by
  unfold parses at hp
  unfold Url.JoinPath
  cases hq : Parse root with
  | error e => simp [hq] at hp
  | ok u => exact JoinPath_String_ne_nil u route h hlen hpct

namespace Net

/-- C10: for every API root that `url.Parse` rejects, each of the eight URL
builders returns the empty string (the error of `url.JoinPath` is dropped, the
result type is a bare string); for every root that it accepts, each builder
returns a non-empty string. -/
theorem builders_empty_iff_root_unparsable (root : GoString) :
    (Url.parses root = false →
      (Url.JoinPath root ["/v1/secrets".toList]).2 ≠ none ∧
      builders.map (fun b => b root) = List.replicate 8 []) ∧
    (Url.parses root = true → [] ∉ builders.map (fun b => b root)) := by
  constructor
  · intro h
    constructor
    · unfold Url.parses at h
      unfold Url.JoinPath
      cases hp : Url.Parse root with
      | error e => simp
      | ok u => simp [hp] at h
    · simp only [builders, List.map_cons, List.map_nil, UrlSecretGet, UrlSecretPut,
        UrlSecretDelete, UrlSecretUndelete, UrlSecretList, UrlInit, UrlInitState, UrlAdminLogin,
        JoinPath_of_parse_error root _ h]
      rfl
  · intro h
    have key : ∀ (x : GoString), plainElement x = true → '%' ∉ x →
        (Url.JoinPath root ['/' :: 'v' :: '1' :: '/' :: x]).1 ≠ [] := by
      intro x hx hpc
      have e : '/' :: 'v' :: '1' :: '/' :: x = pathOf [['v', '1'], x] := by simp [pathOf]
      rw [e]
      apply JoinPath_of_parse_ok root _ _ _ _ h
      · simp only [List.all_cons, List.all_nil, Bool.and_true, Bool.and_eq_true]
        exact ⟨by decide, hx⟩
      · simp [pathOf]
      · rw [← e]
        intro hm
        simp only [List.mem_cons] at hm
        rcases hm with hm | hm | hm | hm | hm
        · revert hm; decide
        · revert hm; decide
        · revert hm; decide
        · revert hm; decide
        · exact hpc hm
    simp only [builders, List.map_cons, List.map_nil, List.mem_cons, List.mem_singleton,
      List.not_mem_nil, or_false, not_or]
    refine ⟨?_, ?_, ?_, ?_, ?_, ?_, ?_, ?_⟩ <;> intro e
    · exact key "secrets?action=get".toList (by decide) (by decide) e.symm
    · exact key "secrets".toList (by decide) (by decide) e.symm
    · exact key "secrets?action=delete".toList (by decide) (by decide) e.symm
    · exact key "secrets?action=undelete".toList (by decide) (by decide) e.symm
    · exact key "secrets?action=list".toList (by decide) (by decide) e.symm
    · exact key "init".toList (by decide) (by decide) e.symm
    · exact key "init?action=check".toList (by decide) (by decide) e.symm
    · exact key "login?action=admin".toList (by decide) (by decide) e.symm

/-- Witness for C10: the root `:foo` is rejected by `url.Parse` and every
builder returns the empty string; the root `https://localhost:8553` is
accepted and no builder returns the empty string. -/
theorem builders_empty_iff_root_unparsable_witness :
    Url.parses ":foo".toList = false ∧
    builders.map (fun b => b ":foo".toList) = List.replicate 8 [] ∧
    Url.parses "https://localhost:8553".toList = true ∧
    [] ∉ builders.map (fun b => b "https://localhost:8553".toList) :=
  ⟨by decide, ((builders_empty_iff_root_unparsable ":foo".toList).1 (by decide)).2, by decide,
    (builders_empty_iff_root_unparsable "https://localhost:8553".toList).2 (by decide)⟩

/-- A class of roots covered by C7 as amended: for every root spelled
`scheme://host[:port][/segment]*` in plain spelling, `UrlSecretPut` returns the
root followed by `/v1/secrets` and `UrlInit` the root followed by `/v1/init`. -/
theorem plain_root_path_builders (r : PlainRoot) (h : r.ok = true) :
    UrlSecretPut r.text = r.text ++ "/v1/secrets".toList ∧
    UrlInit r.text = r.text ++ "/v1/init".toList := by
  have e1 : "/v1/secrets".toList = pathOf ["v1".toList, "secrets".toList] := by decide
  have e2 : "/v1/init".toList = pathOf ["v1".toList, "init".toList] := by decide
  constructor
  · unfold UrlSecretPut
    rw [e1, JoinPath_plain r h _ (by decide) (by decide)]
  · unfold UrlInit
    rw [e2, JoinPath_plain r h _ (by decide) (by decide)]

/-- C7 as amended: for every API root that is an absolute URL without query,
fragment and trailing slash, that is spelled the way `net/url` prints it, and
whose path is empty or rooted and clean, `UrlSecretPut` returns the root
followed by `/v1/secrets` and `UrlInit` the root followed by `/v1/init`. -/
theorem normal_root_path_builders (root : GoString) (ha : absoluteRoot root = true)
    (hn : normalRoot root = true) :
    UrlSecretPut root = root ++ "/v1/secrets".toList ∧
    UrlInit root = root ++ "/v1/init".toList := by
  have e1 : "/v1/secrets".toList = pathOf ["v1".toList, "secrets".toList] := by decide
  have e2 : "/v1/init".toList = pathOf ["v1".toList, "init".toList] := by decide
  constructor
  · unfold UrlSecretPut
    rw [e1]
    exact JoinPath_normal root _ (by decide) (by decide) ha hn
  · unfold UrlInit
    rw [e2]
    exact JoinPath_normal root _ (by decide) (by decide) ha hn

/-- Witness for C7 as amended: the root `https://localhost:8553/api`. -/
theorem normal_root_path_builders_witness :
    absoluteRoot "https://localhost:8553/api".toList = true ∧
    normalRoot "https://localhost:8553/api".toList = true ∧
    UrlSecretPut "https://localhost:8553/api".toList =
      "https://localhost:8553/api/v1/secrets".toList ∧
    UrlInit "https://localhost:8553/api".toList = "https://localhost:8553/api/v1/init".toList :=
  ⟨by decide, by decide,
    normal_root_path_builders "https://localhost:8553/api".toList (by decide) (by decide)⟩

/-- Counterexample to C7 as stated: `HTTP://h` and `http://h/a/./b` are absolute
URLs without query, fragment or trailing slash, yet `UrlSecretPut` and
`UrlInit` do not return the root followed by the route: the scheme is put in
lower case and the path is cleaned.  Neither root is in normal spelling. -/
theorem path_builders_normalise_root :
    absoluteRoot "HTTP://h".toList = true ∧
    UrlSecretPut "HTTP://h".toList = "http://h/v1/secrets".toList ∧
    UrlSecretPut "HTTP://h".toList ≠ "HTTP://h".toList ++ "/v1/secrets".toList ∧
    absoluteRoot "http://h/a/./b".toList = true ∧
    UrlInit "http://h/a/./b".toList = "http://h/a/b/v1/init".toList ∧
    UrlInit "http://h/a/./b".toList ≠ "http://h/a/./b".toList ++ "/v1/init".toList ∧
    normalRoot "HTTP://h".toList = false ∧ normalRoot "http://h/a/./b".toList = false := by
  decide

/-- C6 (the code departs from the claim): for the root
`https://localhost:8553`, each action-qualified builder returns the route with
its `?` escaped as `%3F`, inside the path, and not the route as it is
written. -/
theorem action_builders_escape_question_mark :
    UrlSecretGet "https://localhost:8553".toList =
      "https://localhost:8553/v1/secrets%3Faction=get".toList ∧
    UrlSecretDelete "https://localhost:8553".toList =
      "https://localhost:8553/v1/secrets%3Faction=delete".toList ∧
    UrlSecretUndelete "https://localhost:8553".toList =
      "https://localhost:8553/v1/secrets%3Faction=undelete".toList ∧
    UrlSecretList "https://localhost:8553".toList =
      "https://localhost:8553/v1/secrets%3Faction=list".toList ∧
    UrlInitState "https://localhost:8553".toList =
      "https://localhost:8553/v1/init%3Faction=check".toList ∧
    UrlAdminLogin "https://localhost:8553".toList =
      "https://localhost:8553/v1/login%3Faction=admin".toList ∧
    UrlSecretGet "https://localhost:8553".toList ≠
      "https://localhost:8553".toList ++ "/v1/secrets?action=get".toList ∧
    absoluteRoot "https://localhost:8553".toList = true := by
  decide

end Net

end UrlBuilders

end Spike
